import Mathlib

/-!
Shallow embedding of the order-fulfillment core of the nesttest repository
(NestJS / TypeORM e-commerce backend), together with proofs of the
specification claims about it.

Embedded source files:
- the orders service (OrdersService: create, updateStatus, processPayment,
  cancel) in its current revision, which runs createOrder inside a single
  DataSource.transaction unit of work and retries payment with bounded
  exponential backoff (MAX_ATTEMPTS = 5, BASE_DELAY = 200ms, jitter drawn
  from [0, 100));
- the products service (ProductsService: findOne, updateStock, searchProducts,
  getCategoryTree / buildChildTree) in its current revision, whose search
  cache key is derived from the normalized query text;
- the users service (UsersService: findAll, findOne, create, remove) with its
  user cache keys.

Modelling conventions:
- the relational store is a record of lists of rows (DB); TypeORM save by
  primary key is row replacement;
- monetary amounts (decimal columns) are modelled as integers (a fixed-point
  amount in minor units), never floating point;
- DataSource.transaction is modelled by runTransaction: the callback body is
  a function on the whole DB that either returns the updated DB or an error,
  and on error the caller keeps the pre-call DB (rollback);
- the external payment collaborator (paymentService.processPayment in the
  source, which either throws or resolves with success: true) is an oracle
  from the attempt number to Option String (some tx = resolved, none =
  threw), and Math.random jitter is an oracle from the attempt number to a
  natural number of milliseconds;
- the key-value cache (cache-manager) is an association list from string
  keys to stored payloads; TTL expiry is not modelled because every claim
  scenario happens inside one TTL window;
- the in-memory category object graph is a heap of objects addressed by id,
  each carrying both a children list and a parent back-reference, and the
  recursive tree builder is given explicit fuel; its termination is stated
  as fuel-independence.
-/

namespace NestShop

/-- Order status enum from the order entity (README data model:
pending, confirmed, shipped, delivered, cancelled). -/
inductive OrderStatus
  | pending
  | confirmed
  | shipped
  | delivered
  | cancelled
deriving DecidableEq, Repr

/-- User entity row (users/user.entity.ts). -/
structure UserRow where
  id : ℕ
  email : String
  name : String
  isActive : Bool
deriving DecidableEq, Repr

/-- Product entity row (products/product.entity.ts per README data model);
price is a fixed-point decimal modelled in minor units. -/
structure ProductRow where
  id : ℕ
  name : String
  description : String
  price : ℤ
  stock : ℤ
  isAvailable : Bool
  categoryId : Option ℕ
deriving DecidableEq, Repr

/-- Order entity row. -/
structure OrderRow where
  id : ℕ
  status : OrderStatus
  total : ℤ
  userId : ℕ
deriving DecidableEq, Repr

/-- Order item entity row; price is the unit-price snapshot stored at order
creation. -/
structure OrderItemRow where
  orderId : ℕ
  productId : ℕ
  quantity : ℕ
  price : ℤ
deriving DecidableEq, Repr

/-- The relational store: one list of rows per entity, plus the next
auto-generated order id. -/
structure DB where
  users : List UserRow
  products : List ProductRow
  orders : List OrderRow
  orderItems : List OrderItemRow
  nextOrderId : ℕ
deriving DecidableEq, Repr

/-- The caller-visible errors thrown by the services (BadRequestException /
NotFoundException instances, distinguished by their messages). -/
inductive SvcError
  | userNotFound
  | orderNotFound (id : ℕ)
  | productNotFound (id : ℕ)
  | insufficientStock (name : String)
  | invalidState (st : OrderStatus)
  | paymentUnavailable
  | paymentFailed
  | onlyPendingCancel
deriving DecidableEq, Repr

instance {ε α : Type} [DecidableEq ε] [DecidableEq α] : DecidableEq (Except ε α) :=
  fun x y =>
  match x, y with
  | .ok a, .ok b =>
    if h : a = b then isTrue (by rw [h]) else isFalse (fun hh => h (by injection hh))
  | .error a, .error b =>
    if h : a = b then isTrue (by rw [h]) else isFalse (fun hh => h (by injection hh))
  | .ok _, .error _ => isFalse (fun h => Except.noConfusion h)
  | .error _, .ok _ => isFalse (fun h => Except.noConfusion h)

/-- Repository lookup of a user by primary key. -/
def findUser (db : DB) (id : ℕ) : Option UserRow :=
  db.users.find? (fun u => u.id == id)

/-- Repository lookup of a product by primary key
(ProductsService.findOne without the NotFoundException wrapper). -/
def findProduct (db : DB) (id : ℕ) : Option ProductRow :=
  db.products.find? (fun p => p.id == id)

/-- Repository lookup of an order by primary key
(OrdersService.findOne without the NotFoundException wrapper). -/
def findOrder (db : DB) (id : ℕ) : Option OrderRow :=
  db.orders.find? (fun o => o.id == id)

/-- TypeORM save of a product row: replaces the row with the same primary
key. -/
def saveProduct (db : DB) (p : ProductRow) : DB :=
  { db with products := db.products.map (fun q => if q.id == p.id then p else q) }

/-- TypeORM save of an order row: replaces the row with the same primary
key. -/
def saveOrder (db : DB) (o : OrderRow) : DB :=
  { db with orders := db.orders.map (fun q => if q.id == o.id then o else q) }

/-- Stock of a product as observed through findProduct. -/
def stockOf (db : DB) (pid : ℕ) : Option ℤ :=
  (findProduct db pid).map (fun p => p.stock)

/-- Price of a product as observed through findProduct. -/
def priceOf (db : DB) (pid : ℕ) : Option ℤ :=
  (findProduct db pid).map (fun p => p.price)

/-- Items belonging to an order (the items relation loaded by findOne). -/
def orderItemsOf (db : DB) (orderId : ℕ) : List OrderItemRow :=
  db.orderItems.filter (fun it => it.orderId == orderId)

/-- One line of a create-order request body. -/
structure CreateOrderItemDto where
  productId : ℕ
  quantity : ℕ
deriving DecidableEq, Repr

/-- Create-order request body (CreateOrderDto). -/
structure CreateOrderDto where
  userId : ℕ
  items : List CreateOrderItemDto
deriving DecidableEq, Repr

/-- Name used in the insufficient-stock message:
product?.name with fallback string Product. -/
def stockErrName (p : Option ProductRow) : String :=
  match p with
  | none => "Product"
  | some p => if p.name = "" then "Product" else p.name

/-- One iteration of the item loop in OrdersService.create: look up the
product (with a pessimistic row lock), reject if missing or under-stocked,
persist the order item with the price snapshot, decrement and save the
stock, and accumulate the running total. -/
def processLine (orderId : ℕ) (st : DB × ℤ) (itemDto : CreateOrderItemDto) :
    Except SvcError (DB × ℤ) :=
  let db := st.1
  match findProduct db itemDto.productId with
  | none => .error (.insufficientStock (stockErrName none))
  | some product =>
    if product.stock < (itemDto.quantity : ℤ) then
      .error (.insufficientStock (stockErrName (some product)))
    else
      let item : OrderItemRow :=
        { orderId := orderId, productId := product.id,
          quantity := itemDto.quantity, price := product.price }
      let db1 := { db with orderItems := db.orderItems ++ [item] }
      let db2 := saveProduct db1 { product with stock := product.stock - (itemDto.quantity : ℤ) }
      .ok (db2, st.2 + product.price * (itemDto.quantity : ℤ))

/-- Body of the transactional callback in OrdersService.create: check the
user, insert the pending order header with a provisional zero total, run the
item loop, then save the final total on the header. -/
def createOrderBody (dto : CreateOrderDto) (db : DB) : Except SvcError (DB × OrderRow) :=
  match findUser db dto.userId with
  | none => .error .userNotFound
  | some user =>
    let order : OrderRow :=
      { id := db.nextOrderId, status := .pending, total := 0, userId := user.id }
    let db1 : DB :=
      { db with orders := db.orders ++ [order], nextOrderId := db.nextOrderId + 1 }
    match dto.items.foldlM (processLine order.id) (db1, (0 : ℤ)) with
    | .error e => .error e
    | .ok (db2, total) =>
      let finalOrder := { order with total := total }
      .ok (saveOrder db2 finalOrder, finalOrder)

/-- DataSource.transaction: run the callback body; if it returns a value,
its writes become visible; if it throws, every write is rolled back and the
caller observes the error with the pre-call store. -/
def runTransaction {α : Type} (body : DB → Except SvcError (DB × α)) (db : DB) :
    DB × Except SvcError α :=
  match body db with
  | .ok (db', a) => (db', .ok a)
  | .error e => (db, .error e)

/-- OrdersService.create: the whole multi-step order creation inside one
transactional unit of work. -/
def createOrder (db : DB) (dto : CreateOrderDto) : DB × Except SvcError OrderRow :=
  runTransaction (createOrderBody dto) db

/-- OrdersService.updateStatus: direct status override after an existence
check (PATCH /orders/:id/status), no other business rule. -/
def updateStatus (db : DB) (id : ℕ) (st : OrderStatus) : DB × Except SvcError OrderRow :=
  match findOrder db id with
  | none => (db, .error (.orderNotFound id))
  | some order =>
    let o' := { order with status := st }
    (saveOrder db o', .ok o')

/-- Retry constants of OrdersService.processPayment. -/
def MAX_ATTEMPTS : ℕ := 5

/-- Base delay (milliseconds) of the exponential backoff. -/
def BASE_DELAY : ℕ := 200

/-- The bounded retry loop of OrdersService.processPayment, parameterised by
the payment oracle (some tx = the collaborator resolved with success, none =
it threw) and the jitter oracle. Arguments: current 1-based attempt number
and remaining attempts. Returns the outcome, the number of collaborator
calls made, and the list of inter-attempt delays (milliseconds) in order. -/
def payLoop (oracle : ℕ → Option String) (jitter : ℕ → ℕ) :
    ℕ → ℕ → Except SvcError String × ℕ × List ℕ
  | _, 0 => (.error .paymentFailed, 0, [])
  | attempt, r + 1 =>
    match oracle attempt with
    | some tx => (.ok tx, 1, [])
    | none =>
      if r = 0 then
        (.error .paymentUnavailable, 1, [])
      else
        let rest := payLoop oracle jitter (attempt + 1) r
        (rest.1, rest.2.1 + 1, (BASE_DELAY * 2 ^ (attempt - 1) + jitter attempt) :: rest.2.2)

/-- Result of a processPayment call: final store, outcome, number of
collaborator calls, inter-attempt delays. -/
structure PayRun where
  db : DB
  result : Except SvcError String
  calls : ℕ
  delays : List ℕ
deriving DecidableEq, Repr

/-- OrdersService.processPayment: look up the order, reject non-pending
orders before any collaborator call, then run the bounded retry loop; on
success persist status confirmed, on exhaustion surface the distinct
payment-unavailable error leaving the store untouched. -/
def processPayment (db : DB) (orderId : ℕ) (oracle : ℕ → Option String)
    (jitter : ℕ → ℕ) : PayRun :=
  match findOrder db orderId with
  | none => ⟨db, .error (.orderNotFound orderId), 0, []⟩
  | some order =>
    if order.status ≠ .pending then
      ⟨db, .error (.invalidState order.status), 0, []⟩
    else
      let run := payLoop oracle jitter 1 MAX_ATTEMPTS
      match run.1 with
      | .ok tx => ⟨saveOrder db { order with status := .confirmed }, .ok tx, run.2.1, run.2.2⟩
      | .error e => ⟨db, .error e, run.2.1, run.2.2⟩

/-- ProductsService.updateStock: look up the product (NotFoundException when
missing) and save it with the given absolute stock value. It performs no
cache operation. -/
def updateStock (db : DB) (id : ℕ) (quantity : ℤ) : DB × Except SvcError ProductRow :=
  match findProduct db id with
  | none => (db, .error (.productNotFound id))
  | some p =>
    let p' := { p with stock := quantity }
    (saveProduct db p', .ok p')

/-- One iteration of the restock loop in OrdersService.cancel: re-read the
product through ProductsService.findOne, then call updateStock with the
current stock plus the line quantity. -/
def restockLine (db : DB) (it : OrderItemRow) : Except SvcError DB :=
  match findProduct db it.productId with
  | none => .error (.productNotFound it.productId)
  | some product =>
    match updateStock db product.id (product.stock + (it.quantity : ℤ)) with
    | (db', .ok _) => .ok db'
    | (_, .error e) => .error e

/-- The restock loop of OrdersService.cancel. Each updateStock commits
immediately (there is no enclosing transaction), so an error mid-loop keeps
the earlier restocks. -/
def cancelLoop (db : DB) (its : List OrderItemRow) : DB × Except SvcError Unit :=
  match its with
  | [] => (db, .ok ())
  | it :: rest =>
    match restockLine db it with
    | .error e => (db, .error e)
    | .ok db' => cancelLoop db' rest

/-- OrdersService.cancel: only pending orders can be cancelled; restore each
line quantity to its product, then save status cancelled. -/
def cancel (db : DB) (id : ℕ) : DB × Except SvcError OrderRow :=
  match findOrder db id with
  | none => (db, .error (.orderNotFound id))
  | some order =>
    if order.status ≠ .pending then
      (db, .error .onlyPendingCancel)
    else
      match cancelLoop db (orderItemsOf db id) with
      | (db1, .error e) => (db1, .error e)
      | (db1, .ok _) =>
        (saveOrder db1 { order with status := .cancelled },
         .ok { order with status := .cancelled })

/-- Direct update of a product price on the products table. The claim about
price snapshots quantifies over a later change to the live price; the
services expose no price mutation, so the change is modelled as a plain row
update at the persistence layer. -/
def setPrice (db : DB) (id : ℕ) (newPrice : ℤ) : DB :=
  match findProduct db id with
  | none => db
  | some p => saveProduct db { p with price := newPrice }

/-- One exposed order operation for sequence claims (updateStatus is kept
separate because the status-discipline claim is settled against it). -/
inductive OrderOp
  | createOp (dto : CreateOrderDto)
  | payOp (id : ℕ) (oracle : ℕ → Option String) (jitter : ℕ → ℕ)
  | cancelOp (id : ℕ)

/-- State reached after one exposed order operation. -/
def stepOp (db : DB) : OrderOp → DB
  | .createOp dto => (createOrder db dto).1
  | .payOp id oracle jitter => (processPayment db id oracle jitter).db
  | .cancelOp id => (cancel db id).1

/-- State reached after a sequence of exposed order operations. -/
def applyOps (db : DB) (ops : List OrderOp) : DB :=
  ops.foldl stepOp db

/-! Read-through cache and product search (products service, current
revision) and the user cache paths (users service). -/

/-- Cached payloads: either a product list (search results, users:all
analogue for products) or a user list or a single user. -/
inductive CachedVal
  | products (ps : List ProductRow)
  | users (us : List UserRow)
  | user (u : UserRow)
deriving DecidableEq, Repr

/-- The key-value cache: an association list, most recent write first. -/
abbrev CacheState : Type := List (String × CachedVal)

/-- cacheManager.get. -/
def cacheGet (c : CacheState) (k : String) : Option CachedVal :=
  (c.find? (fun e => e.1 == k)).map (fun e => e.2)

/-- cacheManager.set (TTL not modelled; all claim scenarios stay inside one
TTL window). -/
def cacheSet (c : CacheState) (k : String) (v : CachedVal) : CacheState :=
  (k, v) :: c

/-- cacheManager.del. -/
def cacheDel (c : CacheState) (k : String) : CacheState :=
  c.filter (fun e => e.1 != k)

/-- JavaScript toLowerCase on the character list of a string. -/
def lowerChars (l : List Char) : List Char := l.map Char.toLower

/-- JavaScript trim: drop whitespace from both ends. -/
def trimChars (l : List Char) : List Char :=
  ((l.dropWhile Char.isWhitespace).reverse.dropWhile Char.isWhitespace).reverse

/-- query.toLowerCase().trim() from searchProducts. -/
def normalizeQuery (s : String) : String := ⟨trimChars (lowerChars s.data)⟩

/-- The search cache key of the current products service revision:
derived from the normalized query text. -/
def searchKey (q : String) : String := "search:" ++ normalizeQuery q

/-- Boolean substring test on character lists. -/
def infixOf : List Char → List Char → Bool
  | n, [] => n.isEmpty
  | n, c :: t => n.isPrefixOf (c :: t) || infixOf n t

/-- SQL ILike with wildcards on both sides: case-insensitive substring
match. -/
def ilike (pat : String) (s : String) : Bool :=
  infixOf (lowerChars pat.data) (lowerChars s.data)

/-- The authoritative database search of searchProducts: available products
whose name or description matches the raw query, limited to 20 rows. -/
def dbSearch (db : DB) (q : String) : List ProductRow :=
  (db.products.filter (fun p => p.isAvailable && (ilike q p.name || ilike q p.description))).take 20

/-- ProductsService.searchProducts (current revision): read-through cache
keyed by the normalized query; on miss, query the store and populate the
key. Returns the payload and the post-call cache. -/
def searchProducts (db : DB) (c : CacheState) (q : String) : List ProductRow × CacheState :=
  match cacheGet c (searchKey q) with
  | some (.products ps) => (ps, c)
  | _ => (dbSearch db q, cacheSet c (searchKey q) (.products (dbSearch db q)))

/-- Create-user request body. -/
structure CreateUserDto where
  email : String
  name : String
deriving DecidableEq, Repr

/-- UsersService.create: save the user, then synchronously invalidate the
users:all cache key before returning. -/
def userCreate (db : DB) (c : CacheState) (dto : CreateUserDto) (newId : ℕ) :
    (DB × CacheState) × UserRow :=
  let u : UserRow := { id := newId, email := dto.email, name := dto.name, isActive := true }
  let db' := { db with users := db.users ++ [u] }
  ((db', cacheDel c "users:all"), u)

/-- UsersService.remove: delete the user row, then invalidate both the
users:all key and the per-user key. -/
def userRemove (db : DB) (c : CacheState) (id : ℕ) : (DB × CacheState) × Except SvcError Unit :=
  match findUser db id with
  | none => ((db, c), .error .userNotFound)
  | some u =>
    let db' := { db with users := db.users.filter (fun v => v.id != u.id) }
    ((db', cacheDel (cacheDel c "users:all") ("user:" ++ toString id)), .ok ())

/-! In-memory category object graph and the downward tree builder
(products service, current revision: getCategoryTree / buildChildTree). -/

/-- An in-memory category object: the materialized entity carries both the
children references and the parent back-reference. -/
structure CatObj where
  id : ℕ
  name : String
  childIds : List ℕ
  parentId : Option ℕ
deriving DecidableEq, Repr

/-- The materialized object graph, addressed by category id. -/
abbrev CatHeap : Type := List CatObj

/-- Pointer dereference in the object graph. -/
def findCat (h : CatHeap) (i : ℕ) : Option CatObj :=
  h.find? (fun c => c.id == i)

/-- The tree returned by buildChildTree: plain id, name, children. -/
inductive CatTree
  | node (id : ℕ) (name : String) (children : List CatTree)

mutual

/-- Ids occurring in a built tree. -/
def treeIds : CatTree → List ℕ
  | .node i _ cs => i :: treeIdsList cs

/-- Ids occurring in a list of built trees. -/
def treeIdsList : List CatTree → List ℕ
  | [] => []
  | t :: ts => treeIds t ++ treeIdsList ts

end

/-- ProductsService.buildChildTree (current revision): recurse only
downwards into the children references, never into the parent
back-reference. The source recursion carries no fuel; the embedding makes
the call depth explicit and the termination claim is proved as
fuel-independence for any fuel beyond the graph height. -/
def buildChildTree (h : CatHeap) (fuel cid : ℕ) : Option CatTree :=
  match fuel with
  | 0 => none
  | n + 1 =>
    match findCat h cid with
    | none => none
    | some c => some (.node c.id c.name (c.childIds.filterMap (buildChildTree h n)))

/-- One downward step in the object graph: k is a child reference of j. -/
def ChildStep (h : CatHeap) (j k : ℕ) : Prop :=
  ∃ c, findCat h j = some c ∧ k ∈ c.childIds

/-- Descendant relation: zero or more downward steps. -/
def Descendant (h : CatHeap) : ℕ → ℕ → Prop :=
  Relation.ReflTransGen (ChildStep h)

/-! Generic list helpers shared by the proofs. -/

theorem find?_map_pres {α : Type} (l : List α) (f : α → α) (p : α → Bool)
    (hf : ∀ a, p (f a) = p a) : (l.map f).find? p = (l.find? p).map f := by
  induction l with
  | nil => rfl
  | cons a t ih =>
    rw [List.map_cons]
    cases hpa : p a with
    | true => simp [List.find?, hf a, hpa]
    | false => simp [List.find?, hf a, hpa, ih]

theorem find?_append_left {α : Type} {l1 l2 : List α} {p : α → Bool} {a : α}
    (h : l1.find? p = some a) : (l1 ++ l2).find? p = some a := by
  induction l1 with
  | nil => cases h
  | cons b t ih =>
    rw [List.cons_append]
    cases hpb : p b with
    | true =>
      simp only [List.find?, hpb] at h ⊢
      exact h
    | false =>
      simp only [List.find?, hpb] at h ⊢
      exact ih h

theorem filterMap_congr_mem {α β : Type} {l : List α} {f g : α → Option β}
    (h : ∀ a ∈ l, f a = g a) : l.filterMap f = l.filterMap g := by
  induction l with
  | nil => rfl
  | cons a t ih =>
    rw [List.filterMap_cons, List.filterMap_cons, h a (List.mem_cons_self a t),
      ih (fun b hb => h b (List.mem_cons_of_mem a hb))]

/-! Row-lookup facts about the store. -/

theorem findProduct_id {db : DB} {x : ℕ} {p : ProductRow}
    (h : findProduct db x = some p) : p.id = x := by
  have := List.find?_some h
  simpa using this

theorem findProduct_mem {db : DB} {x : ℕ} {p : ProductRow}
    (h : findProduct db x = some p) : p ∈ db.products :=
  List.mem_of_find?_eq_some h

theorem findOrder_id {db : DB} {x : ℕ} {o : OrderRow}
    (h : findOrder db x = some o) : o.id = x := by
  have := List.find?_some h
  simpa using this

theorem findOrder_mem {db : DB} {x : ℕ} {o : OrderRow}
    (h : findOrder db x = some o) : o ∈ db.orders :=
  List.mem_of_find?_eq_some h

theorem findCat_id {h : CatHeap} {x : ℕ} {c : CatObj}
    (hc : findCat h x = some c) : c.id = x := by
  have := List.find?_some hc
  simpa using this

theorem findCat_mem {h : CatHeap} {x : ℕ} {c : CatObj}
    (hc : findCat h x = some c) : c ∈ h :=
  List.mem_of_find?_eq_some hc

theorem findProduct_saveProduct (db : DB) (p : ProductRow) (x : ℕ) :
    findProduct (saveProduct db p) x
      = (findProduct db x).map (fun q => if q.id == p.id then p else q) := by
  unfold findProduct saveProduct
  apply find?_map_pres
  intro q
  by_cases hq : q.id = p.id
  · simp [hq]
  · have hb : (q.id == p.id) = false := beq_eq_false_iff_ne.mpr hq
    simp [hb]

theorem findOrder_saveOrder (db : DB) (o : OrderRow) (x : ℕ) :
    findOrder (saveOrder db o) x
      = (findOrder db x).map (fun q => if q.id == o.id then o else q) := by
  unfold findOrder saveOrder
  apply find?_map_pres
  intro q
  by_cases hq : q.id = o.id
  · simp [hq]
  · have hb : (q.id == o.id) = false := beq_eq_false_iff_ne.mpr hq
    simp [hb]

theorem findProduct_save_eq {db : DB} {pid : ℕ} {p p' : ProductRow}
    (hp : findProduct db pid = some p) (hid : p'.id = p.id) :
    findProduct (saveProduct db p') pid = some p' := by
  rw [findProduct_saveProduct, hp]
  simp [Option.map, hid]

theorem findProduct_save_ne {db : DB} {p' : ProductRow} {x : ℕ}
    (hx : x ≠ p'.id) :
    findProduct (saveProduct db p') x = findProduct db x := by
  rw [findProduct_saveProduct]
  cases hq : findProduct db x with
  | none => rfl
  | some q =>
    have hqid : q.id = x := findProduct_id hq
    have hb : (q.id == p'.id) = false := beq_eq_false_iff_ne.mpr (by rw [hqid]; exact hx)
    simp [Option.map, hb]

theorem saveProduct_fields (db : DB) (p : ProductRow) :
    (saveProduct db p).orders = db.orders ∧ (saveProduct db p).orderItems = db.orderItems
      ∧ (saveProduct db p).users = db.users
      ∧ (saveProduct db p).nextOrderId = db.nextOrderId :=
  ⟨rfl, rfl, rfl, rfl⟩

theorem saveOrder_fields (db : DB) (o : OrderRow) :
    (saveOrder db o).products = db.products ∧ (saveOrder db o).orderItems = db.orderItems
      ∧ (saveOrder db o).users = db.users
      ∧ (saveOrder db o).nextOrderId = db.nextOrderId :=
  ⟨rfl, rfl, rfl, rfl⟩

/-! Transaction rollback. -/

theorem runTransaction_error {α : Type} (body : DB → Except SvcError (DB × α))
    (db : DB) (e : SvcError) (h : (runTransaction body db).2 = .error e) :
    (runTransaction body db).1 = db := by
  unfold runTransaction at h ⊢
  cases hb : body db with
  | ok v =>
    rw [hb] at h
    obtain ⟨db', a⟩ := v
    simp at h
  | error e' => rfl

/-- C1: for every createOrder request, if any step of the unit of work fails
(unknown user, unknown product, insufficient stock on any line, or any other
failure thrown inside the transactional body, such as a persistence
failure), then the caller observes the error with the store identical to the
pre-call store: no order row, no order-item row and no stock change
survives, including effects of earlier successful lines of the same
request. -/
theorem createOrder_atomic :
    (∀ (α : Type) (body : DB → Except SvcError (DB × α)) (db : DB) (e : SvcError),
        (runTransaction body db).2 = .error e → (runTransaction body db).1 = db)
    ∧ ∀ (db : DB) (dto : CreateOrderDto) (e : SvcError),
        (createOrder db dto).2 = .error e → (createOrder db dto).1 = db :=
  ⟨fun _ body db e h => runTransaction_error body db e h,
   fun db dto e h => runTransaction_error (createOrderBody dto) db e h⟩

/-- Store used in the atomicity witness: one user, a product with stock 5
and a product with stock 1. -/
def dbAtomic : DB :=
  { users := [⟨1, "alice@shop.test", "Alice", true⟩],
    products := [⟨1, "Widget", "", 100, 5, true, none⟩, ⟨2, "Gadget", "", 250, 1, true, none⟩],
    orders := [], orderItems := [], nextOrderId := 1 }

/-- Two-line request whose last line fails on insufficient stock. -/
def dtoAtomic : CreateOrderDto := ⟨1, [⟨1, 3⟩, ⟨2, 5⟩]⟩

/-- Witness for C1: forcing a failure on the last line of a two-line request
leaves the store exactly as before the call, although the first line had
already reserved stock inside the unit of work. -/
theorem createOrder_atomic_witness :
    (createOrder dbAtomic dtoAtomic).2 = .error (.insufficientStock "Gadget")
      ∧ (createOrder dbAtomic dtoAtomic).1 = dbAtomic :=
  ⟨by decide, createOrder_atomic.2 dbAtomic dtoAtomic (.insufficientStock "Gadget") (by decide)⟩

/-- C4: processPayment on an order that exists but is not pending returns
the invalid-state error immediately, performs zero calls to the external
payment collaborator, and leaves the store unchanged, so a confirmed or
cancelled order is never charged. -/
theorem processPayment_rejects_non_pending :
    ∀ (db : DB) (id : ℕ) (order : OrderRow) (oracle : ℕ → Option String) (jitter : ℕ → ℕ),
      findOrder db id = some order → order.status ≠ .pending →
      processPayment db id oracle jitter
        = ⟨db, .error (.invalidState order.status), 0, []⟩ := by
  intro db id order oracle jitter ho hs
  unfold processPayment
  rw [ho]
  simp [hs]

/-- Store used in the no-charge witness: one confirmed order. -/
def dbPaid : DB :=
  { users := [], products := [], orders := [⟨1, .confirmed, 300, 1⟩],
    orderItems := [], nextOrderId := 2 }

/-- Witness for C4: paying an already confirmed order is rejected with the
invalid-state error, with zero collaborator calls and no store change. -/
theorem processPayment_rejects_non_pending_witness :
    (findOrder dbPaid 1 = some ⟨1, .confirmed, 300, 1⟩)
      ∧ processPayment dbPaid 1 (fun _ => some "TXN-1") (fun _ => 0)
          = ⟨dbPaid, .error (.invalidState .confirmed), 0, []⟩ :=
  ⟨by decide,
   processPayment_rejects_non_pending dbPaid 1 ⟨1, .confirmed, 300, 1⟩
     (fun _ => some "TXN-1") (fun _ => 0) (by decide) (by decide)⟩

/-! Bounded payment retry. -/

theorem payLoop_calls_le (oracle : ℕ → Option String) (jitter : ℕ → ℕ) :
    ∀ (r a : ℕ), (payLoop oracle jitter a r).2.1 ≤ r := by
  intro r
  induction r with
  | zero => intro a; simp [payLoop]
  | succ n ih =>
    intro a
    unfold payLoop
    cases oracle a with
    | some tx => simp
    | none =>
      by_cases hn : n = 0
      · simp [hn]
      · simp only [if_neg hn]
        have := ih (a + 1)
        simpa using Nat.succ_le_succ this

theorem payLoop_all_fail (oracle : ℕ → Option String) (jitter : ℕ → ℕ)
    (hfail : ∀ a, oracle a = none) :
    ∀ (r a : ℕ), 1 ≤ r →
      (payLoop oracle jitter a r).1 = .error .paymentUnavailable
      ∧ (payLoop oracle jitter a r).2.1 = r := by
  intro r
  induction r with
  | zero => intro a h; cases h
  | succ n ih =>
    intro a _
    unfold payLoop
    rw [hfail a]
    by_cases hn : n = 0
    · simp [hn]
    · have hrec := ih (a + 1) (Nat.one_le_iff_ne_zero.mpr hn)
      simp only [if_neg hn]
      exact ⟨hrec.1, by simpa using hrec.2⟩

theorem payLoop_delays (oracle : ℕ → Option String) (jitter : ℕ → ℕ) :
    ∀ (r a : ℕ), 1 ≤ a →
      (payLoop oracle jitter a r).2.2.length ≤ r - 1
      ∧ ∀ (k : ℕ) (d : ℕ), ((payLoop oracle jitter a r).2.2)[k]? = some d →
          d = BASE_DELAY * 2 ^ (a - 1 + k) + jitter (a + k) := by
  intro r
  induction r with
  | zero =>
    intro a _
    refine ⟨by simp [payLoop], ?_⟩
    intro k d hd
    simp [payLoop] at hd
  | succ n ih =>
    intro a ha
    unfold payLoop
    cases oracle a with
    | some tx =>
      refine ⟨by simp, ?_⟩
      intro k d hd
      simp at hd
    | none =>
      by_cases hn : n = 0
      · refine ⟨by simp [hn], ?_⟩
        intro k d hd
        simp [hn] at hd
      · have hrec := ih (a + 1) (by omega)
        simp only [if_neg hn]
        constructor
        · simpa using Nat.succ_le_of_lt (Nat.lt_of_le_of_lt hrec.1 (by omega))
        · intro k d hd
          cases k with
          | zero =>
            simp only [List.getElem?_cons_zero, Option.some.injEq] at hd
            simp only [Nat.add_zero]
            omega
          | succ k' =>
            simp only [List.getElem?_cons_succ] at hd
            have := hrec.2 k' d hd
            have ha1 : a + 1 - 1 + k' = a - 1 + (k' + 1) := by omega
            have ha2 : a + 1 + k' = a + (k' + 1) := by omega
            rw [ha1, ha2] at this
            exact this

/-- C3: processPayment on a pending order calls the external payment
collaborator at most MAX_ATTEMPTS (= 5) times; every inter-attempt delay
equals BASE_DELAY * 2 ^ (attempt - 1) plus the jitter drawn for that
attempt, and since the jitter is below 100 ms each delay lies in
[BASE_DELAY * 2 ^ (attempt - 1), BASE_DELAY * 2 ^ attempt); and if the
collaborator fails on every attempt, the call surfaces the distinct
payment-unavailable error, makes exactly 5 calls, and leaves the store
unchanged with the order still pending. -/
theorem processPayment_bounded_backoff :
    ∀ (db : DB) (orderId : ℕ) (order : OrderRow) (oracle : ℕ → Option String)
      (jitter : ℕ → ℕ),
      findOrder db orderId = some order → order.status = .pending →
      (∀ a, jitter a < 100) →
      (processPayment db orderId oracle jitter).calls ≤ MAX_ATTEMPTS
      ∧ (∀ (k : ℕ) (d : ℕ), ((processPayment db orderId oracle jitter).delays)[k]? = some d →
          d = BASE_DELAY * 2 ^ k + jitter (k + 1)
          ∧ BASE_DELAY * 2 ^ k ≤ d ∧ d < BASE_DELAY * 2 ^ (k + 1))
      ∧ ((∀ a, oracle a = none) →
          (processPayment db orderId oracle jitter).result = .error .paymentUnavailable
          ∧ (processPayment db orderId oracle jitter).calls = MAX_ATTEMPTS
          ∧ (processPayment db orderId oracle jitter).db = db
          ∧ ((findOrder (processPayment db orderId oracle jitter).db orderId).map
              OrderRow.status) = some .pending) := by
  intro db orderId order oracle jitter ho hs hj
  have hpp : ∀ (X : Type) (f : PayRun → X),
      f (processPayment db orderId oracle jitter)
        = f ⟨(match (payLoop oracle jitter 1 MAX_ATTEMPTS).1 with
              | .ok tx => saveOrder db { order with status := .confirmed }
              | .error _ => db),
             (payLoop oracle jitter 1 MAX_ATTEMPTS).1,
             (payLoop oracle jitter 1 MAX_ATTEMPTS).2.1,
             (payLoop oracle jitter 1 MAX_ATTEMPTS).2.2⟩ := by
    intro X f
    unfold processPayment
    rw [ho]
    simp only [hs, ne_eq, not_true_eq_false, if_false]
    cases (payLoop oracle jitter 1 MAX_ATTEMPTS).1 with
    | ok tx => rfl
    | error e => rfl
  refine ⟨?_, ?_, ?_⟩
  · rw [hpp ℕ PayRun.calls]
    exact payLoop_calls_le oracle jitter MAX_ATTEMPTS 1
  · intro k d hd
    rw [hpp (List ℕ) PayRun.delays] at hd
    have hdel := (payLoop_delays oracle jitter MAX_ATTEMPTS 1 (Nat.le_refl 1)).2 k d hd
    simp only [Nat.sub_self, Nat.zero_add, Nat.add_comm 1 k] at hdel
    have hjk := hj (k + 1)
    have h2 : (1 : ℕ) ≤ 2 ^ k := Nat.one_le_two_pow
    have hb2 : BASE_DELAY = 200 := rfl
    have hps : (2 : ℕ) ^ (k + 1) = 2 ^ k + 2 ^ k := by rw [pow_succ]; ring
    refine ⟨hdel, ?_, ?_⟩
    · rw [hdel, hb2]
      omega
    · rw [hdel, hb2, hps]
      omega
  · intro hfail
    have hloop := payLoop_all_fail oracle jitter hfail MAX_ATTEMPTS 1 (by decide)
    refine ⟨?_, ?_, ?_, ?_⟩
    · rw [hpp (Except SvcError String) PayRun.result]
      exact hloop.1
    · rw [hpp ℕ PayRun.calls]
      exact hloop.2
    · rw [hpp DB PayRun.db, hloop.1]
    · rw [hpp DB PayRun.db, hloop.1, ho]
      simp [hs]

/-! Search cache keying. -/

theorem searchProducts_cache_shape (db : DB) (c : CacheState) (q : String) :
    (searchProducts db c q).2 = c
      ∨ (searchProducts db c q).2 = cacheSet c (searchKey q) (.products (dbSearch db q)) := by
  unfold searchProducts
  cases hc : cacheGet c (searchKey q) with
  | none => right; rfl
  | some v =>
    cases v with
    | products ps => left; rfl
    | users us => right; rfl
    | user u => right; rfl

theorem searchProducts_miss (db : DB) (c : CacheState) (q : String)
    (h : cacheGet c (searchKey q) = none) :
    (searchProducts db c q).1 = dbSearch db q := by
  unfold searchProducts
  rw [h]

/-- C7: the search cache key is derived from the normalized query text of
the request, so two searches whose normalized queries differ use distinct
keys, a write under one key never changes what the other key reads, and
after a search for one query populates the cache, a search for a different
normalized query still computes its payload from the authoritative store
rather than returning the first query's cached payload. -/
theorem search_cache_query_separation :
    ∀ (q1 q2 : String), normalizeQuery q1 ≠ normalizeQuery q2 →
      searchKey q1 ≠ searchKey q2
      ∧ (∀ (c : CacheState) (v : CachedVal),
          cacheGet (cacheSet c (searchKey q1) v) (searchKey q2) = cacheGet c (searchKey q2))
      ∧ ∀ (db db2 : DB) (c : CacheState),
          cacheGet c (searchKey q2) = none →
          (searchProducts db2 (searchProducts db c q1).2 q2).1 = dbSearch db2 q2 := by
  intro q1 q2 hne
  have hkey : searchKey q1 ≠ searchKey q2 := by
    intro he
    apply hne
    have hd := congrArg String.data he
    simp only [searchKey, String.data_append] at hd
    have h2 := List.append_cancel_left hd
    exact congrArg String.mk h2
  have hget : ∀ (c : CacheState) (v : CachedVal),
      cacheGet (cacheSet c (searchKey q1) v) (searchKey q2) = cacheGet c (searchKey q2) := by
    intro c v
    have hb : (searchKey q1 == searchKey q2) = false := beq_eq_false_iff_ne.mpr hkey
    simp [cacheGet, cacheSet, List.find?, hb]
  refine ⟨hkey, hget, ?_⟩
  intro db db2 c hmiss
  have hmiss2 : cacheGet (searchProducts db c q1).2 (searchKey q2) = none := by
    rcases searchProducts_cache_shape db c q1 with h | h
    · rw [h]; exact hmiss
    · rw [h, hget]; exact hmiss
  exact searchProducts_miss db2 _ q2 hmiss2

/-- Store used in the cache witnesses: two available products. -/
def dbSearchW : DB :=
  { users := [],
    products := [⟨1, "Widget", "small widget", 100, 5, true, none⟩,
                 ⟨2, "Gadget", "big gadget", 250, 3, true, none⟩],
    orders := [], orderItems := [], nextOrderId := 1 }

/-- Witness for C7: after a search for Widget populates the cache, a search
for GADGET (a different normalized query) still returns the store result for
gadget, not the cached widget payload. -/
theorem search_cache_query_separation_witness :
    (normalizeQuery "Widget" ≠ normalizeQuery " GADGET ")
      ∧ searchKey "Widget" ≠ searchKey " GADGET "
      ∧ (searchProducts dbSearchW (searchProducts dbSearchW [] "Widget").2 " GADGET ").1
          = dbSearch dbSearchW " GADGET " := by
  have h := search_cache_query_separation "Widget" " GADGET " (by decide)
  exact ⟨by decide, h.1, h.2.2 dbSearchW dbSearchW [] (by decide)⟩

/-- Store used in the stale-cache scenario: one product with stock 5. -/
def dbStale : DB :=
  { users := [], products := [⟨1, "Widget", "", 100, 5, true, none⟩],
    orders := [], orderItems := [], nextOrderId := 1 }

/-- Cache state after the first search for Widget. -/
def staleCache1 : CacheState := (searchProducts dbStale [] "Widget").2

/-- Store after updateStock sets the product stock to 0. -/
def dbStale2 : DB := (updateStock dbStale 1 0).1

/-- C8 (code evaluated at the failing input): ProductsService.updateStock
performs no cache invalidation, so after a search populates the cache and
updateStock then changes the product, the same search still returns the
pre-mutation cached payload, which differs from the authoritative store
result. -/
theorem updateStock_leaves_stale_search_cache :
    stockOf dbStale2 1 = some 0
      ∧ (searchProducts dbStale2 staleCache1 "Widget").1
          = (searchProducts dbStale [] "Widget").1
      ∧ (searchProducts dbStale2 staleCache1 "Widget").1 ≠ dbSearch dbStale2 "Widget"
      ∧ (searchProducts dbStale2 staleCache1 "Widget").2 = staleCache1 := by
  refine ⟨by decide, by decide, by decide, by decide⟩

/-- Store used in the retry witness: one pending order. -/
def dbRetry : DB :=
  { users := [], products := [], orders := [⟨1, .pending, 300, 1⟩],
    orderItems := [], nextOrderId := 2 }

/-- Witness for C3: with a collaborator that fails on every attempt and zero
jitter, paying a pending order makes exactly 5 calls, surfaces the
payment-unavailable error and leaves the order pending. -/
theorem processPayment_bounded_backoff_witness :
    (findOrder dbRetry 1 = some ⟨1, .pending, 300, 1⟩)
      ∧ (processPayment dbRetry 1 (fun _ => none) (fun _ => 0)).result
          = .error .paymentUnavailable
      ∧ (processPayment dbRetry 1 (fun _ => none) (fun _ => 0)).calls = MAX_ATTEMPTS
      ∧ (processPayment dbRetry 1 (fun _ => none) (fun _ => 0)).db = dbRetry := by
  have h := processPayment_bounded_backoff dbRetry 1 ⟨1, .pending, 300, 1⟩
    (fun _ => none) (fun _ => 0) (by decide) (by decide) (by intro a; simp)
  have hall := h.2.2 (fun a => rfl)
  exact ⟨by decide, hall.1, hall.2.1, hall.2.2.1⟩

/-! Cancellation restores stock. -/

/-- Total quantity the items of an order reference for one product. -/
def restockQty (items : List OrderItemRow) (pid : ℕ) : ℕ :=
  ((items.filter (fun it => it.productId == pid)).map (fun it => it.quantity)).sum

theorem restockQty_cons_eq {it : OrderItemRow} {rest : List OrderItemRow} {pid : ℕ}
    (h : it.productId = pid) :
    restockQty (it :: rest) pid = it.quantity + restockQty rest pid := by
  unfold restockQty
  rw [List.filter_cons]
  simp [h]

theorem restockQty_cons_ne {it : OrderItemRow} {rest : List OrderItemRow} {pid : ℕ}
    (h : it.productId ≠ pid) :
    restockQty (it :: rest) pid = restockQty rest pid := by
  unfold restockQty
  rw [List.filter_cons]
  simp [h]

theorem stockOf_saveOrder (db : DB) (o : OrderRow) (pid : ℕ) :
    stockOf (saveOrder db o) pid = stockOf db pid := rfl

theorem cancelLoop_spec :
    ∀ (its : List OrderItemRow) (db : DB),
      (∀ it ∈ its, (findProduct db it.productId).isSome) →
      (cancelLoop db its).2 = .ok ()
      ∧ (∀ pid, stockOf (cancelLoop db its).1 pid
            = (stockOf db pid).map (fun s => s + (restockQty its pid : ℤ)))
      ∧ (cancelLoop db its).1.orders = db.orders
      ∧ (cancelLoop db its).1.orderItems = db.orderItems
      ∧ (cancelLoop db its).1.users = db.users
      ∧ (cancelLoop db its).1.nextOrderId = db.nextOrderId := by
  intro its
  induction its with
  | nil =>
    intro db _
    refine ⟨rfl, ?_, rfl, rfl, rfl, rfl⟩
    intro pid
    cases h : stockOf db pid <;> simp [cancelLoop, restockQty, h]
  | cons it rest ih =>
    intro db hex
    obtain ⟨p, hp⟩ := Option.isSome_iff_exists.mp (hex it (List.mem_cons_self it rest))
    have hpid : p.id = it.productId := findProduct_id hp
    have hp' : findProduct db p.id = some p := by rw [hpid]; exact hp
    have hstep : restockLine db it
        = .ok (saveProduct db { p with stock := p.stock + (it.quantity : ℤ) }) := by
      simp only [restockLine, updateStock, hp, hp']
    have hloop : cancelLoop db (it :: rest)
        = cancelLoop (saveProduct db { p with stock := p.stock + (it.quantity : ℤ) }) rest := by
      show (match restockLine db it with
            | .error e => (db, .error e)
            | .ok db' => cancelLoop db' rest)
          = cancelLoop (saveProduct db { p with stock := p.stock + (it.quantity : ℤ) }) rest
      rw [hstep]
    have hex' : ∀ j ∈ rest,
        (findProduct (saveProduct db { p with stock := p.stock + (it.quantity : ℤ) })
          j.productId).isSome := by
      intro j hj
      by_cases hcase : j.productId = p.id
      · rw [hcase,
          @findProduct_save_eq db p.id p { p with stock := p.stock + (it.quantity : ℤ) } hp' rfl]
        rfl
      · rw [@findProduct_save_ne db { p with stock := p.stock + (it.quantity : ℤ) }
          j.productId hcase]
        exact hex j (List.mem_cons_of_mem _ hj)
    have hrest := ih (saveProduct db { p with stock := p.stock + (it.quantity : ℤ) }) hex'
    rw [hloop]
    refine ⟨hrest.1, ?_, ?_, ?_, ?_, ?_⟩
    · intro pid
      rw [hrest.2.1 pid]
      by_cases hpid2 : it.productId = pid
      · have hsave : stockOf (saveProduct db { p with stock := p.stock + (it.quantity : ℤ) }) pid
            = some (p.stock + (it.quantity : ℤ)) := by
          unfold stockOf
          rw [← hpid2, ← hpid,
            @findProduct_save_eq db p.id p { p with stock := p.stock + (it.quantity : ℤ) } hp' rfl]
          rfl
        have hdb : stockOf db pid = some p.stock := by
          unfold stockOf
          rw [← hpid2, hp]
          rfl
        rw [hsave, hdb, restockQty_cons_eq hpid2]
        simp only [Option.map]
        push_cast
        ring_nf
      · have hne : pid ≠ ({ p with stock := p.stock + (it.quantity : ℤ) } : ProductRow).id := by
          show pid ≠ p.id
          rw [hpid]
          exact fun hx => hpid2 hx.symm
        have hsave : stockOf (saveProduct db { p with stock := p.stock + (it.quantity : ℤ) }) pid
            = stockOf db pid := by
          unfold stockOf
          rw [findProduct_save_ne hne]
        rw [hsave, restockQty_cons_ne hpid2]
    · rw [hrest.2.2.1]; rfl
    · rw [hrest.2.2.2.1]; rfl
    · rw [hrest.2.2.2.2.1]; rfl
    · rw [hrest.2.2.2.2.2]; rfl

/-- C5: cancelling a pending order succeeds, sets the status to cancelled,
and increments each referenced product's stock by exactly the total quantity
that the order's lines reference for it (once per line); cancelling an order
that is not pending (in particular one already cancelled) fails with the
invalid-state rejection and changes nothing, so a second cancel never
double-restocks. -/
theorem cancel_restores_stock :
    ∀ (db : DB) (id : ℕ) (order : OrderRow),
      findOrder db id = some order →
      (order.status = .pending →
        (∀ it ∈ orderItemsOf db id, (findProduct db it.productId).isSome) →
        (cancel db id).2 = .ok { order with status := .cancelled }
        ∧ (findOrder (cancel db id).1 id).map OrderRow.status = some .cancelled
        ∧ ∀ pid, stockOf (cancel db id).1 pid
            = (stockOf db pid).map (fun s => s + (restockQty (orderItemsOf db id) pid : ℤ)))
      ∧ (order.status ≠ .pending → cancel db id = (db, .error .onlyPendingCancel)) := by
  intro db id order ho
  constructor
  · intro hs hex
    have hloop := cancelLoop_spec (orderItemsOf db id) db hex
    have hpair : cancelLoop db (orderItemsOf db id)
        = ((cancelLoop db (orderItemsOf db id)).1, Except.ok ()) := by
      rw [← hloop.1]
    have hc : cancel db id
        = (saveOrder (cancelLoop db (orderItemsOf db id)).1 { order with status := .cancelled },
           .ok { order with status := .cancelled }) := by
      simp only [cancel, ho]
      rw [if_neg (by simp [hs]), hpair]
    refine ⟨by rw [hc], ?_, ?_⟩
    · rw [hc]
      show (findOrder (saveOrder (cancelLoop db (orderItemsOf db id)).1
        { order with status := .cancelled }) id).map OrderRow.status = some .cancelled
      rw [findOrder_saveOrder]
      have hfo : findOrder (cancelLoop db (orderItemsOf db id)).1 id = some order := by
        unfold findOrder
        rw [hloop.2.2.1]
        exact ho
      rw [hfo]
      have hoid : order.id = id := findOrder_id ho
      simp [Option.map, hoid]
    · intro pid
      rw [hc]
      show stockOf (saveOrder (cancelLoop db (orderItemsOf db id)).1
        { order with status := .cancelled }) pid = _
      rw [stockOf_saveOrder, hloop.2.1 pid]
  · intro hs
    simp only [cancel, ho]
    rw [if_pos hs]

/-- Store used in the cancel witness: a product with stock 2 and a pending
order holding 3 units of it. -/
def dbCancel : DB :=
  { users := [], products := [⟨1, "Widget", "", 100, 2, true, none⟩],
    orders := [⟨1, .pending, 300, 7⟩], orderItems := [⟨1, 1, 3, 100⟩], nextOrderId := 2 }

/-- Witness for C5: cancelling the pending order returns the 3 reserved
units (stock 2 becomes 5) and marks it cancelled; cancelling again fails
with the invalid-state rejection and leaves the store unchanged. -/
theorem cancel_restores_stock_witness :
    (findOrder dbCancel 1 = some ⟨1, .pending, 300, 7⟩)
      ∧ (cancel dbCancel 1).2 = .ok ⟨1, .cancelled, 300, 7⟩
      ∧ stockOf (cancel dbCancel 1).1 1 = some 5
      ∧ cancel (cancel dbCancel 1).1 1
          = ((cancel dbCancel 1).1, .error .onlyPendingCancel) := by
  have h := (cancel_restores_stock dbCancel 1 ⟨1, .pending, 300, 7⟩ (by decide)).1
    (by decide) (by decide)
  have h2 := (cancel_restores_stock (cancel dbCancel 1).1 1 ⟨1, .cancelled, 300, 7⟩
    (by decide)).2 (by decide)
  refine ⟨by decide, h.1, ?_, h2⟩
  rw [h.2.2 1]
  decide

/-! Order total and price snapshots. -/

/-- Sum of line price-snapshot times quantity over stored order items. -/
def itemsTotal (items : List OrderItemRow) : ℤ :=
  (items.map (fun it => it.price * (it.quantity : ℤ))).sum

theorem find?_append_none {α : Type} {l1 l2 : List α} {p : α → Bool}
    (h : l1.find? p = none) : (l1 ++ l2).find? p = l2.find? p := by
  induction l1 with
  | nil => rfl
  | cons b t ih =>
    rw [List.cons_append]
    cases hpb : p b with
    | true =>
      simp only [List.find?, hpb] at h
      exact Option.noConfusion h
    | false =>
      simp only [List.find?, hpb] at h ⊢
      exact ih h

theorem processLine_ok_inv {oid : ℕ} {db : DB} {rt : ℤ} {d : CreateOrderItemDto}
    {db1 : DB} {rt1 : ℤ}
    (h : processLine oid (db, rt) d = .ok (db1, rt1)) :
    ∃ p, findProduct db d.productId = some p ∧ ¬ p.stock < (d.quantity : ℤ)
      ∧ db1 = saveProduct
          { db with orderItems := db.orderItems ++
              [{ orderId := oid, productId := p.id, quantity := d.quantity, price := p.price }] }
          { p with stock := p.stock - (d.quantity : ℤ) }
      ∧ rt1 = rt + p.price * (d.quantity : ℤ) := by
  simp only [processLine] at h
  cases hp : findProduct db d.productId with
  | none =>
    simp only [hp] at h
    exact Except.noConfusion h
  | some p =>
    simp only [hp] at h
    by_cases hs : p.stock < (d.quantity : ℤ)
    · rw [if_pos hs] at h; exact Except.noConfusion h
    · rw [if_neg hs] at h
      refine ⟨p, rfl, hs, ?_, ?_⟩
      · exact (congrArg Prod.fst (Except.ok.inj h)).symm
      · exact (congrArg Prod.snd (Except.ok.inj h)).symm

/-- One processLine step preserves product presence and product prices, and
changes no table other than orderItems and products. -/
theorem processLine_step_pres {oid : ℕ} {db : DB} {rt : ℤ} {d : CreateOrderItemDto}
    {db1 : DB} {rt1 : ℤ}
    (h : processLine oid (db, rt) d = .ok (db1, rt1)) :
    db1.orders = db.orders ∧ db1.users = db.users ∧ db1.nextOrderId = db.nextOrderId
      ∧ (∀ x, priceOf db1 x = priceOf db x)
      ∧ (∀ x, (findProduct db1 x).isSome = (findProduct db x).isSome) := by
  obtain ⟨p, hp, hs, hdb1, hrt1⟩ := processLine_ok_inv h
  subst hdb1
  refine ⟨rfl, rfl, rfl, ?_, ?_⟩
  · intro x
    unfold priceOf
    rw [findProduct_saveProduct]
    cases hq : findProduct db x with
    | none =>
      have : findProduct { db with orderItems := db.orderItems ++
          [{ orderId := oid, productId := p.id, quantity := d.quantity, price := p.price }] } x
          = findProduct db x := rfl
      rw [this, hq]
      rfl
    | some q =>
      have : findProduct { db with orderItems := db.orderItems ++
          [{ orderId := oid, productId := p.id, quantity := d.quantity, price := p.price }] } x
          = findProduct db x := rfl
      rw [this, hq]
      by_cases hqid : q.id = p.id
      · simp only [Option.map, hqid]
        have hpq : q = p := by
          have h1 : q.id = x := findProduct_id hq
          have h2 : p.id = d.productId := findProduct_id hp
          have hx : x = d.productId := by rw [← h1, hqid, h2]
          have h3 := hq
          rw [hx, hp] at h3
          exact (Option.some.inj h3).symm
        subst hpq
        simp
      · have hb : (q.id == ({ p with stock := p.stock - (d.quantity : ℤ) } : ProductRow).id)
            = false := beq_eq_false_iff_ne.mpr hqid
        simp only [Option.map, hb]
        rfl
  · intro x
    rw [findProduct_saveProduct]
    have : findProduct { db with orderItems := db.orderItems ++
        [{ orderId := oid, productId := p.id, quantity := d.quantity, price := p.price }] } x
        = findProduct db x := rfl
    rw [this]
    cases findProduct db x <;> rfl

theorem createLoop_spec (oid : ℕ) :
    ∀ (items : List CreateOrderItemDto) (st : DB × ℤ) (db2 : DB) (rt2 : ℤ),
      items.foldlM (processLine oid) st = .ok (db2, rt2) →
      (∃ newItems : List OrderItemRow,
        db2.orderItems = st.1.orderItems ++ newItems
        ∧ rt2 = st.2 + itemsTotal newItems
        ∧ (∀ it ∈ newItems, it.orderId = oid
            ∧ ∃ p, findProduct st.1 it.productId = some p ∧ it.price = p.price))
      ∧ db2.orders = st.1.orders ∧ db2.users = st.1.users
      ∧ db2.nextOrderId = st.1.nextOrderId
      ∧ (∀ x, priceOf db2 x = priceOf st.1 x)
      ∧ (∀ x, (findProduct db2 x).isSome = (findProduct st.1 x).isSome) := by
  intro items
  induction items with
  | nil =>
    intro st db2 rt2 h
    obtain ⟨db0, rt0⟩ := st
    simp only [List.foldlM_nil] at h
    have h1 : db0 = db2 := congrArg Prod.fst (Except.ok.inj h)
    have h2 : rt0 = rt2 := congrArg Prod.snd (Except.ok.inj h)
    subst h1
    subst h2
    exact ⟨⟨[], by simp, by simp [itemsTotal], by simp⟩, rfl, rfl, rfl,
      fun x => rfl, fun x => rfl⟩
  | cons d rest ih =>
    intro st db2 rt2 h
    obtain ⟨db0, rt0⟩ := st
    rw [List.foldlM_cons] at h
    cases hpl : processLine oid (db0, rt0) d with
    | error e => rw [hpl] at h; cases h
    | ok st1 =>
      rw [hpl] at h
      obtain ⟨db1, rt1⟩ := st1
      have hrest := ih (db1, rt1) db2 rt2 h
      obtain ⟨p, hp, hs, hdb1, hrt1⟩ := processLine_ok_inv hpl
      have hstep := processLine_step_pres hpl
      set item : OrderItemRow :=
        { orderId := oid, productId := p.id, quantity := d.quantity, price := p.price } with hitem
      have hmid : db1.orderItems = db0.orderItems ++ [item] := by
        rw [hdb1]
        rfl
      obtain ⟨⟨newItems, hitems, htot, hper⟩, horders, husers, hnext, hprices, hsome⟩ := hrest
      refine ⟨⟨item :: newItems, ?_, ?_, ?_⟩, ?_, ?_, ?_, ?_, ?_⟩
      · rw [hitems, hmid, List.append_assoc]
        rfl
      · rw [htot, hrt1]
        show rt0 + p.price * (d.quantity : ℤ) + itemsTotal newItems
            = rt0 + itemsTotal (item :: newItems)
        have hcons : itemsTotal (item :: newItems)
            = item.price * (item.quantity : ℤ) + itemsTotal newItems := by
          unfold itemsTotal
          rw [List.map_cons, List.sum_cons]
        rw [hcons]
        simp only [hitem]
        ring
      · intro it hit
        rcases List.mem_cons.mp hit with hhead | htail
        · subst hhead
          refine ⟨rfl, p, ?_, rfl⟩
          show findProduct db0 item.productId = some p
          have hip : item.productId = d.productId := by
            simp only [hitem]
            exact findProduct_id hp
          rw [hip]
          exact hp
        · obtain ⟨hoid, q, hq, hqprice⟩ := hper it htail
          have hsome0 : (findProduct db0 it.productId).isSome = true := by
            rw [← hstep.2.2.2.2 it.productId, hq]
            rfl
          obtain ⟨q0, hq0⟩ := Option.isSome_iff_exists.mp hsome0
          have hpx := hstep.2.2.2.1 it.productId
          unfold priceOf at hpx
          rw [hq, hq0] at hpx
          have : q.price = q0.price := Option.some.inj hpx
          exact ⟨hoid, q0, hq0, by rw [hqprice, this]⟩
      · rw [horders, hstep.1]
      · rw [husers, hstep.2.1]
      · rw [hnext, hstep.2.2.1]
      · intro x
        rw [hprices x, hstep.2.2.2.1 x]
      · intro x
        rw [hsome x, hstep.2.2.2.2 x]

theorem createOrder_ok_inv {db : DB} {dto : CreateOrderDto} {db' : DB} {o : OrderRow}
    (h : createOrder db dto = (db', .ok o)) :
    ∃ user, findUser db dto.userId = some user
      ∧ ∃ db2 total,
          dto.items.foldlM (processLine db.nextOrderId)
            ({ db with
               orders := db.orders ++ [⟨db.nextOrderId, .pending, 0, user.id⟩]
               nextOrderId := db.nextOrderId + 1 }, (0 : ℤ)) = .ok (db2, total)
          ∧ o = ⟨db.nextOrderId, .pending, total, user.id⟩
          ∧ db' = saveOrder db2 (⟨db.nextOrderId, .pending, total, user.id⟩ : OrderRow) := by
  simp only [createOrder, runTransaction, createOrderBody] at h
  cases hu : findUser db dto.userId with
  | none =>
    simp only [hu] at h
    simp at h
  | some user =>
    simp only [hu] at h
    cases hf : dto.items.foldlM (processLine db.nextOrderId)
        ({ db with
           orders := db.orders ++ [⟨db.nextOrderId, .pending, 0, user.id⟩]
           nextOrderId := db.nextOrderId + 1 }, (0 : ℤ)) with
    | error e =>
      simp only [hf] at h
      simp at h
    | ok v =>
      obtain ⟨db2, total⟩ := v
      simp only [hf] at h
      refine ⟨user, rfl, db2, total, hf, ?_, ?_⟩
      · exact (Except.ok.inj (congrArg Prod.snd h)).symm
      · exact (congrArg Prod.fst h).symm

theorem setPrice_tables (db : DB) (pid : ℕ) (np : ℤ) :
    (setPrice db pid np).orderItems = db.orderItems
      ∧ (setPrice db pid np).orders = db.orders := by
  unfold setPrice
  cases findProduct db pid with
  | none => exact ⟨rfl, rfl⟩
  | some p => exact ⟨rfl, rfl⟩

/-- C6: a successfully created order stores one item per request line with
the product price snapshotted at order time, its total equals the sum of
quantity times snapshot price over its stored items, and a later change to a
product's live price changes neither the stored items nor the stored order
row. The two freshness hypotheses say the auto-generated order id is not
already used, which the store guarantees for ids handed out by the
sequence. -/
theorem order_total_is_snapshot_sum :
    ∀ (db : DB) (dto : CreateOrderDto) (db' : DB) (o : OrderRow),
      (∀ it ∈ db.orderItems, it.orderId ≠ db.nextOrderId) →
      (∀ r ∈ db.orders, r.id ≠ db.nextOrderId) →
      createOrder db dto = (db', .ok o) →
      o.total = itemsTotal (orderItemsOf db' o.id)
      ∧ findOrder db' o.id = some o
      ∧ (∀ it ∈ orderItemsOf db' o.id,
          ∃ p, findProduct db it.productId = some p ∧ it.price = p.price)
      ∧ ∀ (pid : ℕ) (newPrice : ℤ),
          orderItemsOf (setPrice db' pid newPrice) o.id = orderItemsOf db' o.id
          ∧ findOrder (setPrice db' pid newPrice) o.id = findOrder db' o.id := by
  intro db dto db' o hfreshI hfreshO h
  obtain ⟨user, hu, db2, total, hf, ho_eq, hdb'⟩ := createOrder_ok_inv h
  have hloop := createLoop_spec db.nextOrderId dto.items _ db2 total hf
  obtain ⟨⟨newItems, hitems, htot, hper⟩, horders, husers, hnext, hprices, hsome⟩ := hloop
  have hoid : o.id = db.nextOrderId := by rw [ho_eq]
  have hitems' : db'.orderItems = db.orderItems ++ newItems := by
    rw [hdb']
    show db2.orderItems = db.orderItems ++ newItems
    rw [hitems]
  have hkey : orderItemsOf db' o.id = newItems := by
    unfold orderItemsOf
    rw [hitems', List.filter_append]
    have h1 : db.orderItems.filter (fun it => it.orderId == o.id) = [] := by
      rw [List.filter_eq_nil_iff]
      intro it hit
      have := hfreshI it hit
      rw [hoid]
      simpa using this
    have h2 : newItems.filter (fun it => it.orderId == o.id) = newItems := by
      rw [List.filter_eq_self]
      intro it hit
      have := (hper it hit).1
      rw [hoid]
      simpa using this
    rw [h1, h2, List.nil_append]
  refine ⟨?_, ?_, ?_, ?_⟩
  · rw [hkey, ho_eq]
    show total = itemsTotal newItems
    rw [htot]
    show (0 : ℤ) + itemsTotal newItems = itemsTotal newItems
    ring
  · rw [hdb', findOrder_saveOrder]
    have hdb2 : findOrder db2 o.id
        = some (⟨db.nextOrderId, .pending, 0, user.id⟩ : OrderRow) := by
      unfold findOrder
      rw [horders]
      show ((db.orders ++ [(⟨db.nextOrderId, .pending, 0, user.id⟩ : OrderRow)]).find?
        (fun q => q.id == o.id))
        = some (⟨db.nextOrderId, .pending, 0, user.id⟩ : OrderRow)
      rw [find?_append_none]
      · rw [hoid]
        simp [List.find?]
      · rw [List.find?_eq_none]
        intro r hr
        have := hfreshO r hr
        rw [hoid]
        simpa using this
    rw [hdb2, ho_eq]
    simp [Option.map]
  · intro it hit
    rw [hkey] at hit
    obtain ⟨_, p, hp, hprice⟩ := hper it hit
    exact ⟨p, hp, hprice⟩
  · intro pid newPrice
    constructor
    · unfold orderItemsOf
      rw [(setPrice_tables db' pid newPrice).1]
    · unfold findOrder
      rw [(setPrice_tables db' pid newPrice).2]

/-- Store used in the snapshot witness: one user and two priced products. -/
def dbSnap : DB :=
  { users := [⟨1, "alice@shop.test", "Alice", true⟩],
    products := [⟨1, "Widget", "", 100, 5, true, none⟩, ⟨2, "Gadget", "", 250, 4, true, none⟩],
    orders := [], orderItems := [], nextOrderId := 1 }

/-- Two-line request: 2 widgets and 1 gadget. -/
def dtoSnap : CreateOrderDto := ⟨1, [⟨1, 2⟩, ⟨2, 1⟩]⟩

/-- Witness for C6: the created order totals 2 * 100 + 1 * 250 = 450, equal
to the stored snapshot sum, and raising the widget price to 999 afterwards
changes neither the stored items nor the stored order row. -/
theorem order_total_is_snapshot_sum_witness :
    (createOrder dbSnap dtoSnap).2 = .ok ⟨1, .pending, 450, 1⟩
      ∧ (⟨1, .pending, 450, 1⟩ : OrderRow).total
          = itemsTotal (orderItemsOf (createOrder dbSnap dtoSnap).1 1)
      ∧ orderItemsOf (setPrice (createOrder dbSnap dtoSnap).1 1 999) 1
          = orderItemsOf (createOrder dbSnap dtoSnap).1 1 := by
  have h := order_total_is_snapshot_sum dbSnap dtoSnap (createOrder dbSnap dtoSnap).1
    ⟨1, .pending, 450, 1⟩ (by decide) (by decide) (by decide)
  exact ⟨by decide, h.1, (h.2.2.2 1 999).1⟩

/-! Stock non-negativity. -/

/-- Every product row carries non-negative stock. -/
abbrev StockNonneg (db : DB) : Prop := ∀ p ∈ db.products, 0 ≤ p.stock

/-- Quantity requested for one product across the lines of a request. -/
def linesQty (items : List CreateOrderItemDto) (pid : ℕ) : ℕ :=
  ((items.filter (fun d => d.productId == pid)).map (fun d => d.quantity)).sum

/-- Quantity successfully reserved for one product by one createOrder call:
the requested quantity if the call succeeds, zero if it fails. -/
def reservedQtyIn (db : DB) (dto : CreateOrderDto) (pid : ℕ) : ℕ :=
  match (createOrder db dto).2 with
  | .ok _ => linesQty dto.items pid
  | .error _ => 0

/-- State after a sequence of createOrder calls. -/
def applyCreates (db : DB) (dtos : List CreateOrderDto) : DB :=
  dtos.foldl (fun d dto => (createOrder d dto).1) db

/-- Total quantity successfully reserved for one product by a sequence of
createOrder calls, linearized in call order. -/
def reservedSeq (pid : ℕ) : DB → List CreateOrderDto → ℕ
  | _, [] => 0
  | db, dto :: rest => reservedQtyIn db dto pid + reservedSeq pid (createOrder db dto).1 rest

theorem linesQty_cons_eq {d : CreateOrderItemDto} {rest : List CreateOrderItemDto} {pid : ℕ}
    (h : d.productId = pid) :
    linesQty (d :: rest) pid = d.quantity + linesQty rest pid := by
  unfold linesQty
  rw [List.filter_cons]
  simp [h]

theorem linesQty_cons_ne {d : CreateOrderItemDto} {rest : List CreateOrderItemDto} {pid : ℕ}
    (h : d.productId ≠ pid) :
    linesQty (d :: rest) pid = linesQty rest pid := by
  unfold linesQty
  rw [List.filter_cons]
  simp [h]

theorem saveProduct_nonneg {db : DB} {p' : ProductRow}
    (hnn : ∀ p ∈ db.products, 0 ≤ p.stock) (hp' : 0 ≤ p'.stock) :
    ∀ p ∈ (saveProduct db p').products, 0 ≤ p.stock := by
  intro r hr
  obtain ⟨q, hq, hfq⟩ := List.mem_map.mp hr
  by_cases hc : q.id = p'.id
  · simp only [hc] at hfq
    simp at hfq
    rw [← hfq]
    exact hp'
  · have hb : (q.id == p'.id) = false := beq_eq_false_iff_ne.mpr hc
    simp only [hb] at hfq
    simp at hfq
    rw [← hfq]
    exact hnn q hq

theorem createLoop_nonneg (oid : ℕ) :
    ∀ (items : List CreateOrderItemDto) (st : DB × ℤ) (db2 : DB) (rt2 : ℤ),
      items.foldlM (processLine oid) st = .ok (db2, rt2) →
      (∀ p ∈ st.1.products, 0 ≤ p.stock) → ∀ p ∈ db2.products, 0 ≤ p.stock := by
  intro items
  induction items with
  | nil =>
    intro st db2 rt2 h hnn
    obtain ⟨db0, rt0⟩ := st
    simp only [List.foldlM_nil] at h
    have h1 : db0 = db2 := congrArg Prod.fst (Except.ok.inj h)
    subst h1
    exact hnn
  | cons d rest ih =>
    intro st db2 rt2 h hnn
    obtain ⟨db0, rt0⟩ := st
    rw [List.foldlM_cons] at h
    cases hpl : processLine oid (db0, rt0) d with
    | error e => rw [hpl] at h; cases h
    | ok st1 =>
      rw [hpl] at h
      obtain ⟨db1, rt1⟩ := st1
      obtain ⟨p, hp, hs, hdb1, hrt1⟩ := processLine_ok_inv hpl
      refine ih (db1, rt1) db2 rt2 h ?_
      show ∀ r ∈ db1.products, 0 ≤ r.stock
      rw [hdb1]
      refine saveProduct_nonneg (fun r hr => hnn r hr) ?_
      show 0 ≤ p.stock - (d.quantity : ℤ)
      omega

theorem createOrder_nonneg (db : DB) (dto : CreateOrderDto) (hnn : StockNonneg db) :
    StockNonneg (createOrder db dto).1 := by
  cases hr : (createOrder db dto).2 with
  | error e =>
    have h1 : (createOrder db dto).1 = db := runTransaction_error (createOrderBody dto) db e hr
    rw [h1]
    exact hnn
  | ok o =>
    have hpair : createOrder db dto = ((createOrder db dto).1, .ok o) := by
      rw [← hr]
    obtain ⟨user, hu, db2, total, hf, ho_eq, hdb'⟩ := createOrder_ok_inv hpair
    rw [hdb']
    intro r hr2
    exact createLoop_nonneg db.nextOrderId dto.items _ db2 total hf
      (fun q hq => hnn q hq) r hr2

theorem restockLine_inv {db : DB} {it : OrderItemRow} {db' : DB}
    (h : restockLine db it = .ok db') :
    ∃ p, findProduct db it.productId = some p
      ∧ db' = saveProduct db { p with stock := p.stock + (it.quantity : ℤ) } := by
  cases hp : findProduct db it.productId with
  | none =>
    simp only [restockLine, hp] at h
    exact Except.noConfusion h
  | some p =>
    have hp' : findProduct db p.id = some p := by rw [findProduct_id hp]; exact hp
    simp only [restockLine, updateStock, hp, hp'] at h
    exact ⟨p, rfl, (Except.ok.inj h).symm⟩

theorem cancelLoop_nonneg :
    ∀ (its : List OrderItemRow) (db : DB),
      (∀ p ∈ db.products, 0 ≤ p.stock) →
      ∀ p ∈ (cancelLoop db its).1.products, 0 ≤ p.stock := by
  intro its
  induction its with
  | nil => intro db hnn; exact hnn
  | cons it rest ih =>
    intro db hnn
    show ∀ p ∈ (match restockLine db it with
        | .error e => (db, Except.error e)
        | .ok db' => cancelLoop db' rest).1.products, (0 : ℤ) ≤ p.stock
    cases hstep : restockLine db it with
    | error e => exact hnn
    | ok db1 =>
      obtain ⟨p, hp, hdb1⟩ := restockLine_inv hstep
      refine ih db1 ?_
      rw [hdb1]
      refine saveProduct_nonneg hnn ?_
      show 0 ≤ p.stock + (it.quantity : ℤ)
      have := hnn p (findProduct_mem hp)
      omega

theorem cancel_nonneg (db : DB) (id : ℕ) (hnn : StockNonneg db) :
    StockNonneg (cancel db id).1 := by
  show StockNonneg (cancel db id).1
  unfold cancel
  cases ho : findOrder db id with
  | none => exact hnn
  | some order =>
    dsimp only
    split
    · exact hnn
    · cases hcl : cancelLoop db (orderItemsOf db id) with
      | mk db1 res =>
        cases res with
        | error e =>
          have : db1 = (cancelLoop db (orderItemsOf db id)).1 := by rw [hcl]
          rw [this]
          exact cancelLoop_nonneg (orderItemsOf db id) db hnn
        | ok u =>
          intro r hr
          have hdb1 : db1 = (cancelLoop db (orderItemsOf db id)).1 := by rw [hcl]
          have hr' : r ∈ (cancelLoop db (orderItemsOf db id)).1.products := by
            rw [← hdb1]
            exact hr
          exact cancelLoop_nonneg (orderItemsOf db id) db hnn r hr'

theorem processPayment_db_shape (db : DB) (id : ℕ) (oracle : ℕ → Option String)
    (jitter : ℕ → ℕ) :
    (processPayment db id oracle jitter).db = db
    ∨ ∃ order, findOrder db id = some order ∧ order.status = .pending
        ∧ (processPayment db id oracle jitter).db
            = saveOrder db { order with status := .confirmed } := by
  unfold processPayment
  cases ho : findOrder db id with
  | none => left; rfl
  | some order =>
    dsimp only
    by_cases hs : order.status ≠ .pending
    · rw [if_pos hs]; left; rfl
    · rw [if_neg hs]
      cases hr : (payLoop oracle jitter 1 MAX_ATTEMPTS).1 with
      | ok tx =>
        right
        refine ⟨order, rfl, not_not.mp hs, ?_⟩
        dsimp only
      | error e =>
        left
        dsimp only

theorem stepOp_nonneg (db : DB) (op : OrderOp) (hnn : StockNonneg db) :
    StockNonneg (stepOp db op) := by
  cases op with
  | createOp dto => exact createOrder_nonneg db dto hnn
  | payOp id oracle jitter =>
    show StockNonneg (processPayment db id oracle jitter).db
    rcases processPayment_db_shape db id oracle jitter with h | ⟨order, _, _, h⟩
    · rw [h]; exact hnn
    · rw [h]
      intro r hr
      exact hnn r hr
  | cancelOp id => exact cancel_nonneg db id hnn

theorem applyOps_nonneg :
    ∀ (ops : List OrderOp) (db : DB), StockNonneg db → StockNonneg (applyOps db ops) := by
  intro ops
  induction ops with
  | nil => intro db hnn; exact hnn
  | cons op rest ih =>
    intro db hnn
    exact ih (stepOp db op) (stepOp_nonneg db op hnn)

theorem createLoop_stock (oid : ℕ) :
    ∀ (items : List CreateOrderItemDto) (st : DB × ℤ) (db2 : DB) (rt2 : ℤ),
      items.foldlM (processLine oid) st = .ok (db2, rt2) →
      ∀ (pid : ℕ) (s : ℤ), stockOf st.1 pid = some s →
        stockOf db2 pid = some (s - (linesQty items pid : ℤ)) := by
  intro items
  induction items with
  | nil =>
    intro st db2 rt2 h pid s hst
    obtain ⟨db0, rt0⟩ := st
    simp only [List.foldlM_nil] at h
    have h1 : db0 = db2 := congrArg Prod.fst (Except.ok.inj h)
    subst h1
    rw [hst]
    simp [linesQty]
  | cons d rest ih =>
    intro st db2 rt2 h pid s hst
    obtain ⟨db0, rt0⟩ := st
    rw [List.foldlM_cons] at h
    cases hpl : processLine oid (db0, rt0) d with
    | error e => rw [hpl] at h; cases h
    | ok st1 =>
      rw [hpl] at h
      obtain ⟨db1, rt1⟩ := st1
      obtain ⟨p, hp, hs, hdb1, hrt1⟩ := processLine_ok_inv hpl
      have hpid : p.id = d.productId := findProduct_id hp
      by_cases hc : d.productId = pid
      · have hps : p.stock = s := by
          have : stockOf db0 pid = some p.stock := by
            unfold stockOf
            rw [← hc, hp]
            rfl
          rw [this] at hst
          exact Option.some.inj hst
        have hst1 : stockOf db1 pid = some (s - (d.quantity : ℤ)) := by
          rw [hdb1]
          unfold stockOf
          rw [← hc, ← hpid]
          rw [@findProduct_save_eq
            { db0 with orderItems := db0.orderItems ++
                [{ orderId := oid, productId := p.id, quantity := d.quantity, price := p.price }] }
            p.id p { p with stock := p.stock - (d.quantity : ℤ) } (by rw [findProduct_id hp]; exact hp) rfl]
          rw [Option.map]
          show some (p.stock - (d.quantity : ℤ)) = some (s - (d.quantity : ℤ))
          rw [hps]
        have := ih (db1, rt1) db2 rt2 h pid (s - (d.quantity : ℤ)) hst1
        rw [this, linesQty_cons_eq hc]
        congr 1
        push_cast
        ring
      · have hst1 : stockOf db1 pid = some s := by
          rw [hdb1]
          unfold stockOf
          have hne : pid ≠ ({ p with stock := p.stock - (d.quantity : ℤ) } : ProductRow).id := by
            show pid ≠ p.id
            rw [hpid]
            exact fun hx => hc hx.symm
          rw [findProduct_save_ne hne]
          exact hst
        have := ih (db1, rt1) db2 rt2 h pid s hst1
        rw [this, linesQty_cons_ne hc]

theorem stockOf_saveOrder_eq (db : DB) (o : OrderRow) (pid : ℕ) :
    stockOf (saveOrder db o) pid = stockOf db pid := rfl

theorem createOrder_stock_delta {db : DB} {dto : CreateOrderDto} {o : OrderRow}
    (h : (createOrder db dto).2 = .ok o) (pid : ℕ) (s : ℤ)
    (hst : stockOf db pid = some s) :
    stockOf (createOrder db dto).1 pid = some (s - (linesQty dto.items pid : ℤ)) := by
  have hpair : createOrder db dto = ((createOrder db dto).1, .ok o) := by rw [← h]
  obtain ⟨user, hu, db2, total, hf, ho_eq, hdb'⟩ := createOrder_ok_inv hpair
  rw [hdb', stockOf_saveOrder_eq]
  exact createLoop_stock db.nextOrderId dto.items _ db2 total hf pid s hst

theorem reservedSeq_le_stock :
    ∀ (dtos : List CreateOrderDto) (db : DB) (pid : ℕ) (p : ProductRow),
      findProduct db pid = some p → StockNonneg db →
      (reservedSeq pid db dtos : ℤ) ≤ p.stock
      ∧ stockOf (applyCreates db dtos) pid
          = some (p.stock - (reservedSeq pid db dtos : ℤ)) := by
  intro dtos
  induction dtos with
  | nil =>
    intro db pid p hp hnn
    constructor
    · show ((0 : ℕ) : ℤ) ≤ p.stock
      have := hnn p (findProduct_mem hp)
      omega
    · show stockOf db pid = some (p.stock - ((0 : ℕ) : ℤ))
      unfold stockOf
      rw [hp]
      simp
  | cons dto rest ih =>
    intro db pid p hp hnn
    cases hr : (createOrder db dto).2 with
    | ok o =>
      have hst : stockOf db pid = some p.stock := by
        unfold stockOf
        rw [hp]
        rfl
      have hdelta := createOrder_stock_delta hr pid p.stock hst
      have hnn1 : StockNonneg (createOrder db dto).1 := createOrder_nonneg db dto hnn
      obtain ⟨p1, hp1⟩ : ∃ p1, findProduct (createOrder db dto).1 pid = some p1 := by
        cases hq : findProduct (createOrder db dto).1 pid with
        | none => unfold stockOf at hdelta; rw [hq] at hdelta; cases hdelta
        | some p1 => exact ⟨p1, rfl⟩
      have hp1s : p1.stock = p.stock - (linesQty dto.items pid : ℤ) := by
        unfold stockOf at hdelta
        rw [hp1] at hdelta
        exact Option.some.inj hdelta
      have hrest := ih (createOrder db dto).1 pid p1 hp1 hnn1
      have hseq : reservedSeq pid db (dto :: rest)
          = linesQty dto.items pid + reservedSeq pid (createOrder db dto).1 rest := by
        show reservedQtyIn db dto pid + reservedSeq pid (createOrder db dto).1 rest = _
        unfold reservedQtyIn
        rw [hr]
      constructor
      · rw [hseq]
        have h1 := hrest.1
        rw [hp1s] at h1
        push_cast at h1 ⊢
        omega
      · have happ : applyCreates db (dto :: rest)
            = applyCreates (createOrder db dto).1 rest := rfl
        rw [happ, hrest.2, hp1s, hseq]
        congr 1
        push_cast
        ring
    | error e =>
      have hdb1 : (createOrder db dto).1 = db := runTransaction_error _ db e hr
      have hseq : reservedSeq pid db (dto :: rest)
          = reservedSeq pid (createOrder db dto).1 rest := by
        show reservedQtyIn db dto pid + reservedSeq pid (createOrder db dto).1 rest = _
        unfold reservedQtyIn
        rw [hr]
        simp
      have hrest := ih (createOrder db dto).1 pid p (by rw [hdb1]; exact hp)
        (by rw [hdb1]; exact hnn)
      constructor
      · rw [hseq]; exact hrest.1
      · have happ : applyCreates db (dto :: rest)
            = applyCreates (createOrder db dto).1 rest := rfl
        rw [happ, hseq]
        exact hrest.2

/-- C2: product stock never becomes negative under any sequence of the
exposed operations; a single line reservation succeeds exactly when the
requested quantity is at most the current stock, decrementing it, and fails
with the insufficient-stock error when it exceeds the stock; a failed
createOrder leaves the products table unchanged; and over any linearized
sequence of createOrder calls against a product with initial stock S, the
total successfully reserved quantity never exceeds S and the final stock is
S minus that total. -/
theorem stock_never_negative :
    (∀ (db : DB) (ops : List OrderOp), StockNonneg db → StockNonneg (applyOps db ops))
    ∧ (∀ (oid : ℕ) (db : DB) (rt : ℤ) (d : CreateOrderItemDto) (p : ProductRow),
        findProduct db d.productId = some p →
        ((d.quantity : ℤ) ≤ p.stock →
            ∃ db1 rt1, processLine oid (db, rt) d = .ok (db1, rt1)
              ∧ stockOf db1 d.productId = some (p.stock - (d.quantity : ℤ)))
        ∧ (p.stock < (d.quantity : ℤ) →
            processLine oid (db, rt) d = .error (.insufficientStock (stockErrName (some p)))))
    ∧ (∀ (db : DB) (dto : CreateOrderDto) (e : SvcError),
        (createOrder db dto).2 = .error e → (createOrder db dto).1.products = db.products)
    ∧ (∀ (dtos : List CreateOrderDto) (db : DB) (pid : ℕ) (p : ProductRow),
        findProduct db pid = some p → StockNonneg db →
        (reservedSeq pid db dtos : ℤ) ≤ p.stock
        ∧ stockOf (applyCreates db dtos) pid
            = some (p.stock - (reservedSeq pid db dtos : ℤ))) := by
  refine ⟨fun db ops h => applyOps_nonneg ops db h, ?_, ?_, reservedSeq_le_stock⟩
  · intro oid db rt d p hp
    constructor
    · intro hle
      have hs : ¬ p.stock < (d.quantity : ℤ) := not_lt.mpr hle
      refine ⟨saveProduct
          { db with orderItems := db.orderItems ++
              [{ orderId := oid, productId := p.id, quantity := d.quantity, price := p.price }] }
          { p with stock := p.stock - (d.quantity : ℤ) },
        rt + p.price * (d.quantity : ℤ), ?_, ?_⟩
      · simp only [processLine, hp, if_neg hs]
      · unfold stockOf
        rw [← findProduct_id hp]
        rw [@findProduct_save_eq
          { db with orderItems := db.orderItems ++
              [{ orderId := oid, productId := p.id, quantity := d.quantity, price := p.price }] }
          p.id p { p with stock := p.stock - (d.quantity : ℤ) }
          (by rw [findProduct_id hp]; exact hp) rfl]
        rfl
    · intro hlt
      simp only [processLine, hp, if_pos hlt]
  · intro db dto e h
    have h1 : (createOrder db dto).1 = db := runTransaction_error (createOrderBody dto) db e h
    rw [h1]

/-- Store used in the stock witness: one product with stock 5. -/
def dbStock : DB :=
  { users := [⟨1, "alice@shop.test", "Alice", true⟩],
    products := [⟨1, "Widget", "", 100, 5, true, none⟩],
    orders := [], orderItems := [], nextOrderId := 1 }

/-- Three createOrder calls against stock 5: reserve 3 (succeeds), reserve 3
(fails on insufficient stock), reserve 2 (succeeds). -/
def dtosStock : List CreateOrderDto := [⟨1, [⟨1, 3⟩]⟩, ⟨1, [⟨1, 3⟩]⟩, ⟨1, [⟨1, 2⟩]⟩]

/-- Witness for C2: the successfully reserved total is 5 = 3 + 2 (the failed
call reserves nothing), it does not exceed the initial stock 5, and the
final stock is 0. -/
theorem stock_never_negative_witness :
    reservedSeq 1 dbStock dtosStock = 5
      ∧ ((reservedSeq 1 dbStock dtosStock : ℤ) ≤ 5
      ∧ stockOf (applyCreates dbStock dtosStock) 1 = some 0) := by
  have h := stock_never_negative.2.2.2 dtosStock dbStock 1
    ⟨1, "Widget", "", 100, 5, true, none⟩ (by decide) (by decide)
  refine ⟨by decide, h.1, ?_⟩
  rw [h.2]
  decide

/-! Status transition discipline. -/

/-- The transitions the data model allows for one step: unchanged, or
pending to confirmed, or pending to cancelled. -/
def StatusTrans (a b : OrderStatus) : Prop :=
  a = b ∨ (a = .pending ∧ (b = .confirmed ∨ b = .cancelled))

/-- Auto-generated order ids are below the id counter. -/
abbrev OrdersWF (db : DB) : Prop := ∀ r ∈ db.orders, r.id < db.nextOrderId

theorem statusTrans_trans {a b c : OrderStatus}
    (h1 : StatusTrans a b) (h2 : StatusTrans b c) : StatusTrans a c := by
  rcases h1 with rfl | ⟨ha, hb⟩
  · exact h2
  · rcases h2 with rfl | ⟨hb', hc⟩
    · exact Or.inr ⟨ha, hb⟩
    · rcases hb with rfl | rfl <;> cases hb'

theorem cancelLoop_orders :
    ∀ (its : List OrderItemRow) (db : DB),
      (cancelLoop db its).1.orders = db.orders
      ∧ (cancelLoop db its).1.nextOrderId = db.nextOrderId := by
  intro its
  induction its with
  | nil => intro db; exact ⟨rfl, rfl⟩
  | cons it rest ih =>
    intro db
    show ((match restockLine db it with
        | .error e => (db, Except.error e)
        | .ok db' => cancelLoop db' rest).1.orders = db.orders
      ∧ (match restockLine db it with
        | .error e => (db, Except.error e)
        | .ok db' => cancelLoop db' rest).1.nextOrderId = db.nextOrderId)
    cases hstep : restockLine db it with
    | error e => exact ⟨rfl, rfl⟩
    | ok db1 =>
      obtain ⟨p, hp, hdb1⟩ := restockLine_inv hstep
      rw [hdb1]
      exact ih (saveProduct db { p with stock := p.stock + (it.quantity : ℤ) })

theorem cancel_db_shape (db : DB) (cid : ℕ) :
    ((cancel db cid).1.orders = db.orders ∧ (cancel db cid).1.nextOrderId = db.nextOrderId)
    ∨ ∃ order db1, findOrder db cid = some order ∧ order.status = .pending
        ∧ db1.orders = db.orders ∧ db1.nextOrderId = db.nextOrderId
        ∧ (cancel db cid).1 = saveOrder db1 { order with status := .cancelled } := by
  unfold cancel
  cases ho : findOrder db cid with
  | none => left; exact ⟨rfl, rfl⟩
  | some order =>
    dsimp only
    by_cases hs : order.status ≠ .pending
    · rw [if_pos hs]; left; exact ⟨rfl, rfl⟩
    · rw [if_neg hs]
      cases hcl : cancelLoop db (orderItemsOf db cid) with
      | mk db1 res =>
        have hd1 : db1 = (cancelLoop db (orderItemsOf db cid)).1 := by rw [hcl]
        have horders := (cancelLoop_orders (orderItemsOf db cid) db).1
        have hnext := (cancelLoop_orders (orderItemsOf db cid) db).2
        cases res with
        | error e =>
          left
          rw [hd1]
          exact ⟨horders, hnext⟩
        | ok u =>
          right
          exact ⟨order, db1, rfl, not_not.mp hs,
            by rw [hd1]; exact horders, by rw [hd1]; exact hnext, rfl⟩

theorem createOrder_step_orders (db : DB) (dto : CreateOrderDto) :
    ((createOrder db dto).1 = db)
    ∨ ∃ uid total db2,
        (createOrder db dto).1
            = saveOrder db2 (⟨db.nextOrderId, .pending, total, uid⟩ : OrderRow)
        ∧ db2.orders = db.orders ++ [(⟨db.nextOrderId, .pending, 0, uid⟩ : OrderRow)]
        ∧ db2.nextOrderId = db.nextOrderId + 1 := by
  cases hr : (createOrder db dto).2 with
  | error e => left; exact runTransaction_error _ db e hr
  | ok o =>
    have hpair : createOrder db dto = ((createOrder db dto).1, .ok o) := by rw [← hr]
    obtain ⟨user, hu, db2, total, hf, ho_eq, hdb'⟩ := createOrder_ok_inv hpair
    right
    refine ⟨user.id, total, db2, hdb', ?_, ?_⟩
    · exact (createLoop_spec db.nextOrderId dto.items _ db2 total hf).2.1
    · exact (createLoop_spec db.nextOrderId dto.items _ db2 total hf).2.2.2.1

theorem findOrder_after_save {db : DB} {id oid : ℕ} {o order : OrderRow} (st : OrderStatus)
    (ho : findOrder db id = some o) (horder : findOrder db oid = some order) :
    ∃ o', findOrder (saveOrder db { order with status := st }) id = some o'
      ∧ (o' = o ∨ (o = order ∧ o' = { order with status := st })) := by
  rw [findOrder_saveOrder, ho]
  by_cases hc : o.id = ({ order with status := st } : OrderRow).id
  · have h1 : o.id = id := findOrder_id ho
    have h2 : order.id = oid := findOrder_id horder
    have hio : id = oid := by rw [← h1, hc]; exact h2
    have hoo : o = order := by
      rw [hio] at ho
      rw [horder] at ho
      exact (Option.some.inj ho).symm
    refine ⟨{ order with status := st }, ?_, Or.inr ⟨hoo, rfl⟩⟩
    have hb : (o.id == ({ order with status := st } : OrderRow).id) = true := by simp [hc]
    simp [Option.map, hb]
  · refine ⟨o, ?_, Or.inl rfl⟩
    have hb : (o.id == ({ order with status := st } : OrderRow).id) = false :=
      beq_eq_false_iff_ne.mpr hc
    simp [Option.map, hb]

theorem saveOrder_wf {db : DB} {o : OrderRow} (hwf : OrdersWF db) :
    OrdersWF (saveOrder db o) := by
  intro r hr
  obtain ⟨q, hq, hfq⟩ := List.mem_map.mp hr
  have hid : r.id = q.id := by
    by_cases hc : q.id = o.id
    · simp only [hc] at hfq
      simp at hfq
      rw [← hfq, hc]
    · have hb : (q.id == o.id) = false := beq_eq_false_iff_ne.mpr hc
      simp only [hb] at hfq
      simp at hfq
      rw [← hfq]
  show r.id < db.nextOrderId
  rw [hid]
  exact hwf q hq

theorem stepOp_status (db : DB) (op : OrderOp) (id : ℕ) (o : OrderRow)
    (hwf : OrdersWF db) (ho : findOrder db id = some o) :
    ∃ o', findOrder (stepOp db op) id = some o' ∧ StatusTrans o.status o'.status := by
  cases op with
  | createOp dto =>
    show ∃ o', findOrder (createOrder db dto).1 id = some o' ∧ _
    rcases createOrder_step_orders db dto with h | ⟨uid, total, db2, hdb', h2, h3⟩
    · rw [h]; exact ⟨o, ho, Or.inl rfl⟩
    · rw [hdb', findOrder_saveOrder]
      have hfo : findOrder db2 id = some o := by
        unfold findOrder
        rw [h2]
        exact find?_append_left ho
      rw [hfo]
      have hne : o.id ≠ db.nextOrderId := by
        have := hwf o (findOrder_mem ho)
        omega
      have hb : (o.id == (⟨db.nextOrderId, .pending, total, uid⟩ : OrderRow).id) = false :=
        beq_eq_false_iff_ne.mpr hne
      refine ⟨o, ?_, Or.inl rfl⟩
      simp [Option.map, hb]
  | payOp oid oracle jitter =>
    show ∃ o', findOrder (processPayment db oid oracle jitter).db id = some o' ∧ _
    rcases processPayment_db_shape db oid oracle jitter with h | ⟨order, horder, hpend, h⟩
    · rw [h]; exact ⟨o, ho, Or.inl rfl⟩
    · rw [h]
      obtain ⟨o', hfind, hcase⟩ := findOrder_after_save .confirmed ho horder
      refine ⟨o', hfind, ?_⟩
      rcases hcase with h1 | ⟨h1, h2⟩
      · rw [h1]; exact Or.inl rfl
      · rw [h1, h2]
        right
        exact ⟨hpend, Or.inl rfl⟩
  | cancelOp cid =>
    show ∃ o', findOrder (cancel db cid).1 id = some o' ∧ _
    rcases cancel_db_shape db cid with ⟨h, _⟩ | ⟨order, db1, horder, hpend, h2, h3, h⟩
    · refine ⟨o, ?_, Or.inl rfl⟩
      unfold findOrder
      rw [h]
      exact ho
    · rw [h]
      have ho1 : findOrder db1 id = some o := by
        unfold findOrder
        rw [h2]
        exact ho
      have horder1 : findOrder db1 cid = some order := by
        unfold findOrder
        rw [h2]
        exact horder
      obtain ⟨o', hfind, hcase⟩ := findOrder_after_save .cancelled ho1 horder1
      refine ⟨o', hfind, ?_⟩
      rcases hcase with h1 | ⟨h1, h4⟩
      · rw [h1]; exact Or.inl rfl
      · rw [h1, h4]
        right
        exact ⟨hpend, Or.inr rfl⟩

theorem stepOp_wf (db : DB) (op : OrderOp) (hwf : OrdersWF db) : OrdersWF (stepOp db op) := by
  cases op with
  | createOp dto =>
    show OrdersWF (createOrder db dto).1
    rcases createOrder_step_orders db dto with h | ⟨uid, total, db2, hdb', h2, h3⟩
    · rw [h]; exact hwf
    · rw [hdb']
      have hwf2 : OrdersWF db2 := by
        intro r hr
        rw [h2] at hr
        rw [h3]
        rcases List.mem_append.mp hr with hl | hr2
        · have := hwf r hl
          omega
        · have : r = (⟨db.nextOrderId, .pending, 0, uid⟩ : OrderRow) := by
            simpa using hr2
          rw [this]
          show db.nextOrderId < db.nextOrderId + 1
          omega
      exact saveOrder_wf hwf2
  | payOp oid oracle jitter =>
    show OrdersWF (processPayment db oid oracle jitter).db
    rcases processPayment_db_shape db oid oracle jitter with h | ⟨order, _, _, h⟩
    · rw [h]; exact hwf
    · rw [h]; exact saveOrder_wf hwf
  | cancelOp cid =>
    show OrdersWF (cancel db cid).1
    rcases cancel_db_shape db cid with ⟨h, hn⟩ | ⟨order, db1, _, _, h2, h3, h⟩
    · intro r hr
      rw [h] at hr
      rw [hn]
      exact hwf r hr
    · rw [h]
      refine saveOrder_wf ?_
      intro r hr
      rw [h2] at hr
      rw [h3]
      exact hwf r hr

/-- C10 (amended): for sequences of createOrder, pay and cancel (the
operations that own business rules; the raw updateStatus override excluded),
an order's status only ever stays unchanged, moves pending to confirmed, or
moves pending to cancelled; confirmed and cancelled never transition
further. -/
theorem status_transitions_without_override :
    ∀ (ops : List OrderOp) (db : DB) (id : ℕ) (o o' : OrderRow),
      OrdersWF db → findOrder db id = some o →
      findOrder (applyOps db ops) id = some o' →
      StatusTrans o.status o'.status := by
  intro ops
  induction ops with
  | nil =>
    intro db id o o' _ ho ho'
    have ho2 : findOrder db id = some o' := ho'
    rw [ho] at ho2
    rw [Option.some.inj ho2]
    exact Or.inl rfl
  | cons op rest ih =>
    intro db id o o' hwf ho ho'
    obtain ⟨o1, ho1, hstep⟩ := stepOp_status db op id o hwf ho
    exact statusTrans_trans hstep
      (ih (stepOp db op) id o1 o' (stepOp_wf db op hwf) ho1 ho')

/-- Store used for the status-override counterexample: one confirmed
order. -/
def dbOverride : DB :=
  { users := [], products := [], orders := [⟨1, .confirmed, 300, 1⟩],
    orderItems := [], nextOrderId := 2 }

/-- C10 counterexample: updateStatus is one of the exposed operations
(PATCH /orders/:id/status) and performs a raw override, so a confirmed order
can be moved to cancelled and even back to pending, refuting the claim that
over every sequence of the exposed operations (createOrder, pay, cancel,
updateStatus) a confirmed order never becomes cancelled and nothing returns
to pending. -/
theorem updateStatus_breaks_discipline :
    ((findOrder dbOverride 1).map OrderRow.status = some .confirmed)
      ∧ ((findOrder (updateStatus dbOverride 1 .cancelled).1 1).map OrderRow.status
          = some .cancelled)
      ∧ ((findOrder (updateStatus dbOverride 1 .pending).1 1).map OrderRow.status
          = some .pending)
      ∧ ¬ StatusTrans OrderStatus.confirmed OrderStatus.cancelled := by
  refine ⟨by decide, by decide, by decide, ?_⟩
  intro h
  rcases h with h | ⟨h, _⟩ <;> cases h

/-- Store used in the discipline witness: a pending order over a product
line. -/
def dbFlow : DB :=
  { users := [], products := [⟨1, "Widget", "", 100, 2, true, none⟩],
    orders := [⟨1, .pending, 300, 1⟩], orderItems := [⟨1, 1, 3, 100⟩], nextOrderId := 2 }

/-- Witness for the amended C10: cancelling the pending order yields a
transition allowed by the discipline. -/
theorem status_transitions_without_override_witness :
    OrdersWF dbFlow
      ∧ findOrder dbFlow 1 = some ⟨1, .pending, 300, 1⟩
      ∧ StatusTrans OrderStatus.pending
          (OrderRow.status ⟨1, .cancelled, 300, 1⟩) := by
  refine ⟨by decide, by decide, ?_⟩
  exact status_transitions_without_override [.cancelOp 1] dbFlow 1
    ⟨1, .pending, 300, 1⟩ ⟨1, .cancelled, 300, 1⟩ (by decide) (by decide) (by decide)

/-! Category tree builder: termination and downward-only traversal. -/

theorem buildChildTree_succ (h : CatHeap) (n cid : ℕ) :
    buildChildTree h (n + 1) cid
      = match findCat h cid with
        | none => none
        | some c => some (.node c.id c.name (c.childIds.filterMap (buildChildTree h n))) := rfl

theorem treeIdsList_mem {i : ℕ} :
    ∀ {ts : List CatTree}, i ∈ treeIdsList ts ↔ ∃ t ∈ ts, i ∈ treeIds t := by
  intro ts
  induction ts with
  | nil => simp [treeIdsList]
  | cons t ts ih =>
    show i ∈ treeIds t ++ treeIdsList ts ↔ _
    rw [List.mem_append, ih]
    constructor
    · rintro (h1 | ⟨t', ht', hi⟩)
      · exact ⟨t, List.mem_cons_self t ts, h1⟩
      · exact ⟨t', List.mem_cons_of_mem t ht', hi⟩
    · rintro ⟨t', ht', hi⟩
      rcases List.mem_cons.mp ht' with rfl | hmem
      · exact Or.inl hi
      · exact Or.inr ⟨t', hmem, hi⟩

theorem buildChildTree_parent_irrel (h : CatHeap) :
    ∀ (f : CatObj → Option ℕ) (fuel cid : ℕ),
      buildChildTree (h.map (fun c => { c with parentId := f c })) fuel cid
        = buildChildTree h fuel cid := by
  intro f fuel
  induction fuel with
  | zero => intro cid; rfl
  | succ n ih =>
    intro cid
    rw [buildChildTree_succ, buildChildTree_succ]
    have hfind : findCat (h.map (fun c => { c with parentId := f c })) cid
        = (findCat h cid).map (fun c => { c with parentId := f c }) := by
      unfold findCat
      apply find?_map_pres
      intro c
      rfl
    rw [hfind]
    cases findCat h cid with
    | none => rfl
    | some c =>
      simp only [Option.map]
      rw [filterMap_congr_mem (fun k _ => ih k)]

theorem buildChildTree_stable_aux (h : CatHeap) (m : ℕ → ℕ)
    (hm : ∀ c ∈ h, ∀ k ∈ c.childIds, m k < m c.id) :
    ∀ (n cid f1 f2 : ℕ), m cid < n → m cid < f1 → m cid < f2 →
      buildChildTree h f1 cid = buildChildTree h f2 cid := by
  intro n
  induction n with
  | zero => intro cid f1 f2 hn; exact absurd hn (Nat.not_lt_zero _)
  | succ n ih =>
    intro cid f1 f2 hn h1 h2
    obtain ⟨g1, rfl⟩ : ∃ g1, f1 = g1 + 1 := ⟨f1 - 1, by omega⟩
    obtain ⟨g2, rfl⟩ : ∃ g2, f2 = g2 + 1 := ⟨f2 - 1, by omega⟩
    rw [buildChildTree_succ, buildChildTree_succ]
    cases hc : findCat h cid with
    | none => rfl
    | some c =>
      have hcid : c.id = cid := findCat_id hc
      have hmem : c ∈ h := findCat_mem hc
      have hcong : c.childIds.filterMap (buildChildTree h g1)
          = c.childIds.filterMap (buildChildTree h g2) := by
        apply filterMap_congr_mem
        intro k hk
        have hmk : m k < m cid := by rw [← hcid]; exact hm c hmem k hk
        exact ih k g1 g2 (by omega) (by omega) (by omega)
      show some (CatTree.node c.id c.name (c.childIds.filterMap (buildChildTree h g1)))
        = some (CatTree.node c.id c.name (c.childIds.filterMap (buildChildTree h g2)))
      rw [hcong]

theorem buildChildTree_desc (h : CatHeap) :
    ∀ (fuel cid : ℕ) (t : CatTree), buildChildTree h fuel cid = some t →
      ∀ i ∈ treeIds t, Descendant h cid i := by
  intro fuel
  induction fuel with
  | zero =>
    intro cid t ht
    exact Option.noConfusion ht
  | succ n ih =>
    intro cid t ht i hi
    rw [buildChildTree_succ] at ht
    cases hc : findCat h cid with
    | none =>
      rw [hc] at ht
      exact Option.noConfusion ht
    | some c =>
      rw [hc] at ht
      have ht2 : CatTree.node c.id c.name (c.childIds.filterMap (buildChildTree h n)) = t :=
        Option.some.inj ht
      have hcid : c.id = cid := findCat_id hc
      rw [← ht2] at hi
      have hi2 : i = c.id ∨ i ∈ treeIdsList (c.childIds.filterMap (buildChildTree h n)) := by
        simpa [treeIds] using hi
      rcases hi2 with rfl | hi3
      · rw [hcid]
        exact Relation.ReflTransGen.refl
      · obtain ⟨t', ht', hi4⟩ := treeIdsList_mem.mp hi3
        obtain ⟨k, hk, hbk⟩ := List.mem_filterMap.mp ht'
        have hdesc : Descendant h k i := ih k t' hbk i hi4
        have hstep : ChildStep h cid k := ⟨c, hc, hk⟩
        exact Relation.ReflTransGen.head hstep hdesc

theorem desc_measure_le (h : CatHeap) (m : ℕ → ℕ)
    (hm : ∀ c ∈ h, ∀ k ∈ c.childIds, m k < m c.id) :
    ∀ {a b : ℕ}, Descendant h a b → m b ≤ m a := by
  intro a b hd
  induction hd with
  | refl => exact le_refl _
  | tail hab hbc ih =>
    obtain ⟨c, hc, hk⟩ := hbc
    have h1 := hm c (findCat_mem hc) _ hk
    have h2 := findCat_id hc
    rw [h2] at h1
    omega

theorem desc_strict (h : CatHeap) (m : ℕ → ℕ)
    (hm : ∀ c ∈ h, ∀ k ∈ c.childIds, m k < m c.id)
    {a b : ℕ} (hd : Descendant h a b) (hne : b ≠ a) : m b < m a := by
  rcases Relation.ReflTransGen.cases_tail hd with heq | ⟨c, hac, hcb⟩
  · exact absurd heq hne
  · obtain ⟨obj, hobj, hkb⟩ := hcb
    have h1 : m b < m obj.id := hm obj (findCat_mem hobj) b hkb
    have h2 : obj.id = c := findCat_id hobj
    have h3 : m c ≤ m a := desc_measure_le h m hm hac
    rw [h2] at h1
    omega

/-- C9: on a finite category object graph whose parent pointers are acyclic
(witnessed by a rank that drops along every child reference, which holds for
every category graph since children are derived as the inverse of the
acyclic parent column), buildChildTree is fuel-independent beyond the rank
of the start node (the recursion terminates, from any start node including a
leaf), every id in the returned tree is the start node or one of its
descendants through child references only, no strict ancestor of the start
node ever appears, and the result is completely independent of the parent
back-references carried by the in-memory objects. -/
theorem buildChildTree_terminates_desc_only :
    ∀ (h : CatHeap) (m : ℕ → ℕ),
      (∀ c ∈ h, ∀ k ∈ c.childIds, m k < m c.id) →
      (∀ (cid fuel : ℕ), m cid + 1 ≤ fuel →
          buildChildTree h fuel cid = buildChildTree h (m cid + 1) cid)
      ∧ (∀ (fuel cid : ℕ) (t : CatTree), buildChildTree h fuel cid = some t →
          (∀ i ∈ treeIds t, Descendant h cid i)
          ∧ ∀ a, Descendant h a cid → a ≠ cid → a ∉ treeIds t)
      ∧ ∀ (f : CatObj → Option ℕ) (fuel cid : ℕ),
          buildChildTree (h.map (fun c => { c with parentId := f c })) fuel cid
            = buildChildTree h fuel cid := by
  intro h m hm
  refine ⟨?_, ?_, buildChildTree_parent_irrel h⟩
  · intro cid fuel hf
    exact buildChildTree_stable_aux h m hm (m cid + 1) cid fuel (m cid + 1)
      (by omega) (by omega) (by omega)
  · intro fuel cid t ht
    refine ⟨buildChildTree_desc h fuel cid t ht, ?_⟩
    intro a hdesc hne hmem
    have h1 : Descendant h cid a := buildChildTree_desc h fuel cid t ht a hmem
    have h2 : m a ≤ m cid := desc_measure_le h m hm h1
    have h3 : m cid < m a := desc_strict h m hm hdesc (Ne.symm hne)
    omega

/-- Heap used in the tree witness: a root whose child is a leaf, with the
parent back-reference populated on the leaf. -/
def heapW : CatHeap := [⟨0, "root", [1], none⟩, ⟨1, "leaf", [], some 0⟩]

/-- Rank function witnessing that the parent pointers of heapW are
acyclic. -/
def rankW : ℕ → ℕ := fun i => if i = 0 then 1 else 0

/-- Witness for C9: starting from the leaf, the build is already stable at
fuel 1 (it terminates), and rewriting every parent back-reference changes
nothing. -/
theorem buildChildTree_terminates_desc_only_witness :
    (∀ c ∈ heapW, ∀ k ∈ c.childIds, rankW k < rankW c.id)
      ∧ buildChildTree heapW 5 1 = buildChildTree heapW 1 1
      ∧ buildChildTree (heapW.map (fun c => { c with parentId := none })) 5 1
          = buildChildTree heapW 5 1 := by
  have hm : ∀ c ∈ heapW, ∀ k ∈ c.childIds, rankW k < rankW c.id := by decide
  have h := buildChildTree_terminates_desc_only heapW rankW hm
  refine ⟨hm, ?_, ?_⟩
  · exact h.1 1 5 (by decide)
  · exact h.2.2 (fun _ => none) 5 1

end NestShop

